import Mathlib

/-!
Verification development for the magic-keyboard gesture-to-word recognition
engine (C++ sources under src/): geometry primitives, the gesture classifier
state machine (src/gesture/gesture_agent.h), the key-sequence extractor and
candidate ranker (src/engine/swipe_engine.cpp), the legacy orchestrating
variant (src/engine/magickeyboard.cpp) and the shape-channel engine
(src/engine/shark2.cpp).

Conventions of the shallow embedding:
* C++ `double` coordinate arithmetic is embedded as exact rational (`ℚ`)
  arithmetic.  All geometric comparisons in the sources that go through
  `std::sqrt` are embedded by their exact algebraic characterisations on
  squared distances (`sqrtGtB`, `sqrtLtMulB`, `sqrtDiffGtB` below); bridge
  lemmas relate each encoding to the corresponding `Real.sqrt` inequality.
* Candidate scores involve `std::log1p`, hence are embedded in `ℝ`
  (see the Candidate Ranker section).
* `std::string` key identifiers are embedded as `String`; dictionary words
  and key-sequence strings as `List Char` (ASCII assumed, as in the C code
  which applies `std::tolower`/`std::isalpha` bytewise).
* `std::vector` is `List`; indices into vectors are `ℕ`; the C++ pointer
  identity of keys inside `keys_` is index identity.
-/

set_option maxHeartbeats 1000000

namespace MagicKB

/-! ## Geometry primitives

Embedding of `swipe::Point`, `swipe::Rect` (swipe_engine.h:53-77), identical
structs appear in gesture_agent.h and shark2.h. -/

/-- A 2D point with exact rational coordinates (embeds `Point {double x,y}`). -/
structure PointQ where
  x : ℚ
  y : ℚ
deriving DecidableEq, Repr

/-- Embeds `Point::distanceSquaredTo` (swipe_engine.h:57-61): `dx*dx + dy*dy`. -/
def distanceSquaredTo (p q : PointQ) : ℚ :=
  (p.x - q.x) * (p.x - q.x) + (p.y - q.y) * (p.y - q.y)

/-- An axis-aligned rectangle (embeds `Rect {double x,y,w,h}`). -/
structure RectQ where
  x : ℚ
  y : ℚ
  w : ℚ
  h : ℚ
deriving DecidableEq, Repr

/-- Embeds `Rect::contains` (swipe_engine.h:74-76):
`p.x >= x && p.x <= x + w && p.y >= y && p.y <= y + h`. -/
def RectQ.containsB (r : RectQ) (p : PointQ) : Bool :=
  if r.x ≤ p.x ∧ p.x ≤ r.x + r.w ∧ r.y ≤ p.y ∧ p.y ≤ r.y + r.h then true else false

/-- Squared distances are nonnegative. -/
theorem distanceSquaredTo_nonneg (p q : PointQ) : 0 ≤ distanceSquaredTo p q :=
  add_nonneg (mul_self_nonneg _) (mul_self_nonneg _)

/-! ## Exact encodings of the `std::sqrt` comparisons

The sources compare Euclidean distances, i.e. square roots of the rational
quantities we track.  Each comparison is embedded by its exact algebraic
characterisation on the squared distance; the bridge lemmas prove the
characterisations correct against `Real.sqrt`. -/

/-- Exact test for `Real.sqrt dsq > r` given `0 ≤ dsq`.  Used for
`distanceTo(...) > threshold` comparisons. -/
def sqrtGtB (dsq r : ℚ) : Bool :=
  if r < 0 then true else if r * r < dsq then true else false

/-- Exact test for `Real.sqrt dsq ≥ r` given `0 ≤ dsq`.  Used for
`dist >= config_.resampleDistance` (gesture_agent.h:383). -/
def sqrtGeB (dsq r : ℚ) : Bool :=
  if r ≤ 0 then true else if r * r ≤ dsq then true else false

/-- Exact test for `Real.sqrt a < Real.sqrt b * ρ` given `0 ≤ a`, `0 ≤ b`.
Used for `d_new < d_cur * ratio` (swipe_engine.cpp:316, gesture_agent.h:425). -/
def sqrtLtMulB (a b ρ : ℚ) : Bool :=
  if ρ < 0 then false else if a < b * (ρ * ρ) then true else false

/-- Exact test for `Real.sqrt a - Real.sqrt b > g` given `0 ≤ a`, `0 ≤ b`.
Used for `(d_cur - d_new) > gap` (swipe_engine.cpp:317, gesture_agent.h:426). -/
def sqrtDiffGtB (a b g : ℚ) : Bool :=
  if 0 ≤ g then
    if b + g * g < a ∧ 4 * (g * g) * b < (a - b - g * g) ^ 2 then true else false
  else
    if b < a + g * g ∨ (b - a - g * g) ^ 2 < 4 * (g * g) * a then true else false

theorem sqrtGtB_correct (dsq r : ℚ) (_h : 0 ≤ dsq) :
    sqrtGtB dsq r = true ↔ (r : ℝ) < Real.sqrt (dsq : ℚ) := by
  unfold sqrtGtB
  by_cases hr : r < 0
  · simp only [if_pos hr, true_iff]
    calc (r : ℝ) < 0 := by exact_mod_cast hr
    _ ≤ Real.sqrt (dsq : ℚ) := Real.sqrt_nonneg _
  · rw [if_neg hr]
    push_neg at hr
    rw [show ((r : ℚ) : ℝ) = Real.sqrt ((r * r : ℚ) : ℝ) by
      push_cast
      rw [Real.sqrt_mul_self (by exact_mod_cast hr)]]
    rw [Real.sqrt_lt_sqrt_iff (by positivity)]
    by_cases hlt : r * r < dsq
    · simp only [if_pos hlt, true_iff]
      exact_mod_cast hlt
    · simp only [if_neg hlt, Bool.false_eq_true, false_iff]
      intro hc
      exact hlt (by exact_mod_cast hc)

theorem sqrtGeB_correct (dsq r : ℚ) (_h : 0 ≤ dsq) :
    sqrtGeB dsq r = true ↔ (r : ℝ) ≤ Real.sqrt (dsq : ℚ) := by
  unfold sqrtGeB
  by_cases hr : r ≤ 0
  · simp only [if_pos hr, true_iff]
    calc (r : ℝ) ≤ 0 := by exact_mod_cast hr
    _ ≤ Real.sqrt (dsq : ℚ) := Real.sqrt_nonneg _
  · rw [if_neg hr]
    push_neg at hr
    rw [show ((r : ℚ) : ℝ) = Real.sqrt ((r * r : ℚ) : ℝ) by
      push_cast
      rw [Real.sqrt_mul_self (le_of_lt (by exact_mod_cast hr))]]
    rw [Real.sqrt_le_sqrt_iff (by positivity)]
    by_cases hle : r * r ≤ dsq
    · simp only [if_pos hle, true_iff]
      exact_mod_cast hle
    · simp only [if_neg hle, Bool.false_eq_true, false_iff]
      intro hc
      exact hle (by exact_mod_cast hc)

/-! ## Duplicate collapse and bounce removal

Embeds `GestureAgent::removeBouncesAndDuplicates` (gesture_agent.h:481-518);
the same three phases appear inline in `SwipeEngine::mapPathToSequence`
(swipe_engine.cpp:351-379) and `MagicKeyboardEngine::mapPathToSequence`
(magickeyboard.cpp:718-755).  The minimum-dwell threshold is a parameter
(`config_.minDwellForBounce` in the agent, the constant 2 elsewhere). -/

/-- Run-length encoding loop body: the C++ loop
`if (dwells.empty() || s != dwells.back().first) push {s,1} else back.second++`
restated as structural recursion carrying the open run. -/
def dwellGo (cur : String) (cnt : ℕ) : List String → List (String × ℕ)
  | [] => [(cur, cnt)]
  | s :: rest =>
    if s = cur then dwellGo cur (cnt + 1) rest
    else (cur, cnt) :: dwellGo s 1 rest

/-- Phase 2: collapse immediate repeats, tracking a dwell count per run
(gesture_agent.h:488-495). -/
def dwells : List String → List (String × ℕ)
  | [] => []
  | s :: rest => dwellGo s 1 rest

/-- Phase 3 loop: drop entry `i` when `dwells[i-1].first == dwells[i+1].first`
and `dwells[i].second < minDwell` (gesture_agent.h:499-507).  `prev` is the
(unfiltered) predecessor entry's key, exactly as the C++ index `i-1` refers to
the original vector whether or not entry `i-1` was itself dropped. -/
def bounceSkip (minDwell : ℕ) (prev : Option String) (b : String × ℕ)
    (next : Option (String × ℕ)) : Bool :=
  match prev, next with
  | some p, some n => decide (p = n.1) && decide (b.2 < minDwell)
  | _, _ => false

def bounceGo (minDwell : ℕ) (prev : Option String) : List (String × ℕ) → List String
  | [] => []
  | b :: rest =>
    if bounceSkip minDwell prev b rest.head? then bounceGo minDwell (some b.1) rest
    else b.1 :: bounceGo minDwell (some b.1) rest

/-- Phase 4 loop body (gesture_agent.h:510-515): final duplicate collapse. -/
def collapseGo (cur : String) : List String → List String
  | [] => [cur]
  | s :: rest => if s = cur then collapseGo cur rest else cur :: collapseGo s rest

/-- Final duplicate collapse: keep an element only when it differs from the
last kept one. -/
def collapse : List String → List String
  | [] => []
  | s :: rest => collapseGo s rest

/-- Embeds `GestureAgent::removeBouncesAndDuplicates` (gesture_agent.h:481-518):
run-length encode, drop low-dwell A-B-A middles, re-collapse. -/
def removeBouncesAndDuplicates (minDwell : ℕ) (raw : List String) : List String :=
  if raw = [] then [] else collapse (bounceGo minDwell none (dwells raw))

/-- Boolean test: no two adjacent elements are equal (an "already collapsed"
sequence in the sense of phase 4). -/
def noAdjDupB : List String → Bool
  | a :: b :: t => !(decide (a = b)) && noAdjDupB (b :: t)
  | _ => true

/-- Boolean test: no element equals the element two positions before it
(no A-B-A pattern). -/
def noABAB : List String → Bool
  | a :: b :: c :: t => !(decide (a = c)) && noABAB (b :: c :: t)
  | _ => true

/-! Helper lemmas for the idempotence analysis. -/

theorem dwellGo_of_chain_ne (rest : List String) :
    ∀ cur cnt, noAdjDupB (cur :: rest) = true →
      dwellGo cur cnt rest = (cur, cnt) :: rest.map (fun s => (s, 1)) := by
  induction rest with
  | nil => intro cur cnt _; rfl
  | cons s t ih =>
    intro cur cnt h
    unfold noAdjDupB at h
    simp only [Bool.and_eq_true, Bool.not_eq_true', decide_eq_false_iff_not] at h
    obtain ⟨hne, ht⟩ := h
    unfold dwellGo
    rw [if_neg (fun hc => hne hc.symm)]
    have := ih s 1 ht
    rw [this]
    rfl

theorem dwells_of_noAdjDup (l : List String) (h : noAdjDupB l = true) :
    dwells l = l.map (fun s => (s, 1)) := by
  cases l with
  | nil => rfl
  | cons s t =>
    show dwellGo s 1 t = _
    rw [dwellGo_of_chain_ne t s 1 h]
    rfl

theorem bounceGo_of_noABA (l : List String) :
    ∀ prev : Option String,
      noABAB l = true →
      (∀ p, prev = some p → ∀ n t, l.head? = some n → l.tail.head? = some t → p ≠ t) →
      bounceGo 2 prev (l.map (fun s => (s, 1))) = l := by
  induction l with
  | nil => intro prev _ _; rfl
  | cons b t ih =>
    intro prev hnoaba hprev
    have htail : noABAB t = true := by
      cases t with
      | nil => rfl
      | cons c t2 =>
        cases t2 with
        | nil => rfl
        | cons d t3 =>
          unfold noABAB at hnoaba
          simp only [Bool.and_eq_true] at hnoaba
          exact hnoaba.2
    have hskipf :
        bounceSkip 2 prev (b, 1) ((t.map (fun s => (s, 1))).head?) = false := by
      cases prev with
      | none => rfl
      | some p =>
        cases t with
        | nil => rfl
        | cons n t2 =>
          have hpn : p ≠ n := hprev p rfl b n rfl rfl
          simp [bounceSkip, hpn]
    show bounceGo 2 prev ((b, 1) :: t.map (fun s => (s, 1))) = b :: t
    rw [bounceGo, hskipf]
    simp only [Bool.false_eq_true, if_false]
    have hb : ∀ p, (some b : Option String) = some p →
        ∀ n t2, t.head? = some n → t.tail.head? = some t2 → p ≠ t2 := by
      intro p hp n t2 hn ht2
      injection hp with hp; subst hp
      cases t with
      | nil => simp at hn
      | cons c t3 =>
        simp only [List.head?_cons, Option.some.injEq] at hn
        cases t3 with
        | nil => simp at ht2
        | cons d t4 =>
          simp only [List.tail_cons, List.head?_cons, Option.some.injEq] at ht2
          subst ht2
          unfold noABAB at hnoaba
          simp only [Bool.and_eq_true, Bool.not_eq_true', decide_eq_false_iff_not] at hnoaba
          exact hnoaba.1
    rw [ih (some b) htail hb]

theorem collapseGo_of_noAdjDup (t : List String) :
    ∀ cur, noAdjDupB (cur :: t) = true → collapseGo cur t = cur :: t := by
  induction t with
  | nil => intro cur _; rfl
  | cons s t2 ih =>
    intro cur h
    unfold noAdjDupB at h
    simp only [Bool.and_eq_true, Bool.not_eq_true', decide_eq_false_iff_not] at h
    unfold collapseGo
    rw [if_neg (fun hc => h.1 hc.symm)]
    rw [ih s h.2]

theorem collapse_of_noAdjDup (l : List String) (h : noAdjDupB l = true) :
    collapse l = l := by
  cases l with
  | nil => rfl
  | cons s t => exact collapseGo_of_noAdjDup t s h

/-- C3 (amended): the duplicate-collapse plus bounce-removal pass is a no-op
on a sequence that has no adjacent duplicates and no A-B-A pattern.  (On an
already-collapsed sequence that does contain an A-B-A pattern the pass is not
a no-op: every dwell count is 1 on re-processing, so the middle of each such
pattern is removed again — see the counterexample.) -/
theorem c3_collapse_pass_noop_iff_no_aba (l : List String)
    (h1 : noAdjDupB l = true) (h2 : noABAB l = true) :
    removeBouncesAndDuplicates 2 l = l := by
  unfold removeBouncesAndDuplicates
  cases l with
  | nil => rfl
  | cons s t =>
    rw [if_neg (by simp)]
    rw [dwells_of_noAdjDup _ h1]
    rw [bounceGo_of_noABA (s :: t) none h2 (fun p hp => by cases hp)]
    exact collapse_of_noAdjDup _ h1

/-- C3 witness: the amended theorem applied at the concrete collapsed,
A-B-A-free sequence `["a","b","c"]`. -/
theorem c3_collapse_pass_noop_witness :
    removeBouncesAndDuplicates 2 ["a", "b", "c"] = ["a", "b", "c"] :=
  c3_collapse_pass_noop_iff_no_aba ["a", "b", "c"] (by decide) (by decide)

/-- C3 counterexample: `["a","b","a"]` is exactly the output of one pass on
the raw sequence `["a","b","b","a"]` (so it is "already collapsed" in the
claim's sense), yet a second pass shrinks it to `["a"]`: the pass is not
idempotent. -/
theorem c3_collapse_pass_not_idempotent :
    removeBouncesAndDuplicates 2 ["a", "b", "b", "a"] = ["a", "b", "a"] ∧
    removeBouncesAndDuplicates 2 ["a", "b", "a"] = ["a"] ∧
    removeBouncesAndDuplicates 2 (removeBouncesAndDuplicates 2 ["a", "b", "b", "a"]) ≠
      removeBouncesAndDuplicates 2 ["a", "b", "b", "a"] := by
  refine ⟨by decide, by decide, ?_⟩
  decide

/-! ## SwipeEngine: keys, key finding and path → key-sequence mapping

Embeds `swipe::Key` (swipe_engine.h:82-91), the tuning constants of
`swipe::config` (swipe_engine.h:22-48), `SwipeEngine::findBestKey`
(swipe_engine.cpp:240-263) and `SwipeEngine::mapPathToSequence`
(swipe_engine.cpp:277-382). -/

/-- Embeds `swipe::Key` (swipe_engine.h:82-91). -/
structure Key where
  id : String
  label : String
  bounds : RectQ
  center : PointQ
  isSpecial : Bool
deriving DecidableEq, Repr

/-- Placeholder key for (never-taken) out-of-range list indexing. -/
def defKey : Key := ⟨"", "", ⟨0, 0, 0, 0⟩, ⟨0, 0⟩, false⟩

/-- `config::DISTANCE_RATIO_THRESHOLD = 0.72` (swipe_engine.h:24). -/
def distanceRatioThreshold : ℚ := 72 / 100

/-- `config::DISTANCE_GAP_MIN_PX = 6.0` (swipe_engine.h:25). -/
def distanceGapMinPx : ℚ := 6

/-- `config::CONSECUTIVE_SAMPLES_THRESHOLD = 2` (swipe_engine.h:26). -/
def consecutiveSamplesThreshold : ℕ := 2

/-- `config::MIN_DWELL_FOR_BOUNCE = 2` (swipe_engine.h:27). -/
def minDwellForBounce : ℕ := 2

/-- `config::LENGTH_TOLERANCE = 3` (swipe_engine.h:30). -/
def lengthTolerance : ℤ := 3

/-- `config::MAX_CANDIDATES = 8` (swipe_engine.h:40). -/
def maxCandidates : ℕ := 8

/-- `config::MIN_KEY_SEQUENCE_LENGTH = 2` (swipe_engine.h:41). -/
def minKeySequenceLength : ℕ := 2

/-- `config::EDIT_DISTANCE_LIMIT = 7` (swipe_engine.h:44). -/
def editDistanceLimit : ℕ := 7

/-- Loop of `SwipeEngine::findBestKey` (swipe_engine.cpp:240-263): a key whose
bounds contain the point wins outright (early `return`); otherwise track the
key with minimal squared center distance, starting from the sentinel `1e18`.
After the loop the best key is rejected when its squared distance exceeds
`100*100` (noise filtering). -/
def findBestKeyGo (pt : PointQ) : List (ℕ × Key) → ℚ → Option ℕ → Option ℕ
  | [], best, bk => if 100 * 100 < best then none else bk
  | (i, k) :: rest, best, bk =>
    if k.bounds.containsB pt then some i
    else
      let d2 := distanceSquaredTo pt k.center
      if d2 < best then findBestKeyGo pt rest d2 (some i)
      else findBestKeyGo pt rest best bk

/-- Embeds `SwipeEngine::findBestKey` (swipe_engine.cpp:240-263), returning the
index of the chosen key in `keys` (C++ returns a pointer into `keys_`). -/
def findBestKey (keys : List Key) (pt : PointQ) : Option ℕ :=
  findBestKeyGo pt keys.enum (10 ^ 18) none

/-- Main loop of `SwipeEngine::mapPathToSequence` (swipe_engine.cpp:291-345),
with hysteresis.  State: current key index, `consecutiveSamples`, candidate
key index and `candidateCount` (all locals in this variant). -/
def swipeLoop (keys : List Key) :
    List PointQ → Option ℕ → ℕ → Option ℕ → ℕ → List String
  | [], _, _, _, _ => []
  | pt :: rest, cur, consec, candK, candC =>
    match findBestKey keys pt with
    | none => swipeLoop keys rest cur consec candK candC
    | some bi =>
      match cur with
      | none => (keys.getD bi defKey).id :: swipeLoop keys rest (some bi) 1 candK candC
      | some ci =>
        if bi = ci then swipeLoop keys rest (some ci) (consec + 1) candK candC
        else
          let k := keys.getD bi defKey
          let ck := keys.getD ci defKey
          let d2cur := distanceSquaredTo pt ck.center
          let d2new := distanceSquaredTo pt k.center
          let accept : Bool :=
            k.bounds.containsB pt ||
            (sqrtLtMulB d2new d2cur distanceRatioThreshold &&
             sqrtDiffGtB d2cur d2new distanceGapMinPx)
          if accept then
            k.id :: swipeLoop keys rest (some bi) 1 none 0
          else if candK = some bi then
            if consecutiveSamplesThreshold ≤ candC + 1 then
              k.id :: swipeLoop keys rest (some bi) 1 none 0
            else
              swipeLoop keys rest (some ci) consec (some bi) (candC + 1)
          else
            swipeLoop keys rest (some ci) consec (some bi) 1

/-- Embeds `SwipeEngine::mapPathToSequence` (swipe_engine.cpp:277-382).
Phases 2-4 (dwell collapse, A-B-A bounce removal with threshold
`MIN_DWELL_FOR_BOUNCE = 2`, re-collapse) are the shared
`removeBouncesAndDuplicates` pass. -/
def mapPathToSequence (keys : List Key) (path : List PointQ) : List String :=
  if path = [] ∨ keys = [] then []
  else
    let raw := swipeLoop keys path none 0 none 0
    if raw = [] then [] else removeBouncesAndDuplicates minDwellForBounce raw

/-! ## Legacy variant: `MagicKeyboardEngine::mapPathToSequence`

Embeds magickeyboard.cpp:625-758.  This variant declares its hysteresis
candidate tracking as C++ function-`static` locals
(`static const Key *candidateKey = nullptr; static int candidateCount = 0;`,
magickeyboard.cpp:686-687), so that state survives from one invocation to the
next.  The embedding threads that state explicitly as `MkStatics`. -/

/-- Embeds the `Key` struct used by `MagicKeyboardEngine` (id, rect, center). -/
structure MkKey where
  id : String
  r : RectQ
  center : PointQ
deriving DecidableEq, Repr

def mkDefKey : MkKey := ⟨"", ⟨0, 0, 0, 0⟩, ⟨0, 0⟩⟩

/-- The function-`static` locals of `MagicKeyboardEngine::mapPathToSequence`
(magickeyboard.cpp:686-687), threaded explicitly.  Their C++ initial value is
`{nullptr, 0}`. -/
structure MkStatics where
  candidateKey : Option ℕ
  candidateCount : ℕ
deriving DecidableEq, Repr

/-- Inline best-key scan of magickeyboard.cpp:634-651: a containing key wins
with `break` (so the tracked minimum only covers earlier keys); otherwise the
closest center wins.  Returns the chosen index and the tracked `bestDistSq`
(still consulted by the hysteresis test below). -/
def mkFindBestGo (pt : PointQ) : List (ℕ × MkKey) → ℚ → Option ℕ → Option ℕ × ℚ
  | [], best, bk => (bk, best)
  | (i, k) :: rest, best, bk =>
    if k.r.containsB pt then (some i, best)
    else
      let d2 := distanceSquaredTo pt k.center
      if d2 < best then mkFindBestGo pt rest d2 (some i)
      else mkFindBestGo pt rest best bk

/-- Main loop of magickeyboard.cpp:634-712, threading the `static` candidate
state.  Acceptance: inside-rect, or `bestDistSq < d2_cur * (0.72 * 0.72)` and
`sqrt(d2_cur) - sqrt(bestDistSq) > 6.0` (magickeyboard.cpp:672-673), or two
consecutive samples on the same candidate key (magickeyboard.cpp:694-707). -/
def mkLoop (keys : List MkKey) :
    List PointQ → Option ℕ → ℕ → MkStatics → List String × MkStatics
  | [], _, _, st => ([], st)
  | pt :: rest, cur, consec, st =>
    match mkFindBestGo pt keys.enum (10 ^ 18) none with
    | (none, _) => mkLoop keys rest cur consec st
    | (some bi, bestD2) =>
      match cur with
      | none =>
        let r := mkLoop keys rest (some bi) 1 st
        ((keys.getD bi mkDefKey).id :: r.1, r.2)
      | some ci =>
        if bi = ci then mkLoop keys rest (some ci) (consec + 1) st
        else
          let k := keys.getD bi mkDefKey
          let ck := keys.getD ci mkDefKey
          let d2cur := distanceSquaredTo pt ck.center
          let accept : Bool :=
            k.r.containsB pt ||
            ((if bestD2 < d2cur * (72 / 100 * (72 / 100)) then true else false) &&
             sqrtDiffGtB d2cur bestD2 6)
          if accept then
            let r := mkLoop keys rest (some bi) 1 ⟨none, 0⟩
            (k.id :: r.1, r.2)
          else if st.candidateKey = some bi then
            if 2 ≤ st.candidateCount + 1 then
              let r := mkLoop keys rest (some bi) 1 ⟨none, 0⟩
              (k.id :: r.1, r.2)
            else
              mkLoop keys rest (some ci) consec ⟨some bi, st.candidateCount + 1⟩
          else
            mkLoop keys rest (some ci) consec ⟨some bi, 1⟩

/-- Embeds `MagicKeyboardEngine::mapPathToSequence` (magickeyboard.cpp:625-758)
as a function of the layout, the persistent `static` state and the path,
returning the key sequence together with the `static` state left behind for
the next invocation. -/
def mkMapPathToSequence (keys : List MkKey) (st : MkStatics) (path : List PointQ) :
    List String × MkStatics :=
  if path = [] ∨ keys = [] then ([], st)
  else
    let r := mkLoop keys path none 0 st
    if r.1 = [] then ([], r.2) else (removeBouncesAndDuplicates 2 r.1, r.2)

/-- Two-key layout used to exhibit the `static`-state carry-over: key "a" with
rect `[0,10]×[0,10]` (center `(5,5)`) and key "b" with rect `[20,30]×[0,10]`
(center `(25,5)`). -/
def c1Keys : List MkKey :=
  [⟨"a", ⟨0, 0, 10, 10⟩, ⟨5, 5⟩⟩, ⟨"b", ⟨20, 0, 10, 10⟩, ⟨25, 5⟩⟩]

/-- Path whose second point `(16,5)` is nearest to "b" (distance 9 vs 11) but
not decisively so: not inside "b", ratio test `81 < 121*0.5184` fails. -/
def c1Path : List PointQ := [⟨5, 5⟩, ⟨16, 5⟩]

/-- C1: the recognition pipeline is not a pure function of layout, dictionary
and path — `MagicKeyboardEngine::mapPathToSequence` carries its hysteresis
candidate tracking in function-`static` locals, so two consecutive identical
invocations on the same engine return different key sequences: the first call
returns `["a"]` and leaves `candidateKey = "b", candidateCount = 1` behind;
the second, identical call then reaches the two-consecutive-samples threshold
and returns `["a", "b"]`. -/
theorem c1_mapPathToSequence_static_state_breaks_determinism :
    (mkMapPathToSequence c1Keys ⟨none, 0⟩ c1Path).1 = ["a"] ∧
    (mkMapPathToSequence c1Keys ⟨none, 0⟩ c1Path).2 = ⟨some 1, 1⟩ ∧
    (mkMapPathToSequence c1Keys
        (mkMapPathToSequence c1Keys ⟨none, 0⟩ c1Path).2 c1Path).1 = ["a", "b"] := by
  norm_num [mkMapPathToSequence, mkLoop, mkFindBestGo, List.enum, List.enumFrom,
    mkDefKey, List.getD, RectQ.containsB, distanceSquaredTo, sqrtDiffGtB,
    removeBouncesAndDuplicates, dwells, dwellGo, bounceGo, bounceSkip, collapse,
    collapseGo, c1Keys, c1Path, List.cons_ne_nil]
  decide

/-! ## GestureAgent: the gesture classifier state machine

Embeds `magickeyboard::gesture::GestureAgent` (gesture_agent.h).  The C++
object's mutable members become an explicit state record; `pointerDown`,
`pointerMove`, `pointerUp` and `reset` become state-transition functions; the
tap/swipe callbacks become an output-event list. -/

/-- Embeds `GestureConfig` (gesture_agent.h:24-51) with its default values. -/
structure GestureConfig where
  deadzoneRadius : ℚ := 10
  timeThresholdMs : ℚ := 35
  smoothingAlpha : ℚ := 40 / 100
  resampleDistance : ℚ := 7
  stationaryTimeoutMs : ℚ := 0
  hysteresisRatio : ℚ := 72 / 100
  minDistanceGap : ℚ := 6
  minConsecutiveSamples : ℕ := 2
  minDwellForBounce : ℕ := 2
deriving DecidableEq, Repr

/-- Embeds the agent's `Key` (gesture_agent.h:96-104). -/
structure GaKey where
  id : String
  rect : RectQ
  center : PointQ
deriving DecidableEq, Repr

/-- The `Key(id, r)` constructor (gesture_agent.h:102-103): center is the
rectangle's geometric center. -/
def gaKeyOf (id : String) (r : RectQ) : GaKey :=
  ⟨id, r, ⟨r.x + r.w / 2, r.y + r.h / 2⟩⟩

def gaDefKey : GaKey := ⟨"", ⟨0, 0, 0, 0⟩, ⟨0, 0⟩⟩

/-- Embeds `PathPoint` (gesture_agent.h:86-90). -/
structure PathPt where
  window : PointQ
  layout : PointQ
  timestamp : ℕ
deriving DecidableEq, Repr

/-- Embeds `GestureState` (gesture_agent.h:110-116). -/
inductive GState
  | Idle
  | TapPending
  | Swiping
  | Completed
  | Tapped
deriving DecidableEq, Repr

/-- The mutable members of `GestureAgent` (gesture_agent.h:212-240). -/
structure GAState where
  cfg : GestureConfig
  keys : List GaKey
  state : GState
  startPosWindow : PointQ
  startPosLayout : PointQ
  startTime : ℕ
  lastSmoothedWindow : PointQ
  lastSmoothedLayout : PointQ
  path : List PathPt
  currentKey : Option ℕ
  candidateKey : Option ℕ
  candidateCount : ℕ
deriving DecidableEq, Repr

/-- A freshly constructed agent (gesture_agent.h:247-248) with the given
config and `setKeys` already applied. -/
def initGA (cfg : GestureConfig) (keys : List GaKey) : GAState :=
  ⟨cfg, keys, .Idle, ⟨0, 0⟩, ⟨0, 0⟩, 0, ⟨0, 0⟩, ⟨0, 0⟩, [], none, none, 0⟩

/-- Input events delivered by the UI layer (gesture_agent.h:176-181), plus the
public `reset` (gesture_agent.h:189). -/
inductive GEvent
  | down (windowPos layoutPos : PointQ) (timestamp : ℕ)
  | move (windowPos layoutPos : PointQ) (timestamp : ℕ)
  | up (windowPos layoutPos : PointQ) (timestamp : ℕ)
  | reset
deriving DecidableEq, Repr

/-- Observable outputs: the `TapResult`/`SwipeResult` callback payloads
(gesture_agent.h:138-147). -/
inductive GOut
  | tapped (keyId : String) (position : PointQ)
  | swiped (path : List PathPt) (keySequence : List String) (durationMs : ℚ)
deriving DecidableEq, Repr

/-- `uint64_t` subtraction `timestamp - startTime_` with wrap-around, as in
`static_cast<double>(timestamp - startTime_)` (gesture_agent.h:286,348). -/
def wrapSub (a b : ℕ) : ℕ := (a + 2 ^ 64 - b % 2 ^ 64) % 2 ^ 64

/-- Embeds `GestureAgent::smooth` (gesture_agent.h:371-374):
`a*raw + (1-a)*prev` componentwise. -/
def gaSmooth (cfg : GestureConfig) (raw prev : PointQ) : PointQ :=
  ⟨cfg.smoothingAlpha * raw.x + (1 - cfg.smoothingAlpha) * prev.x,
   cfg.smoothingAlpha * raw.y + (1 - cfg.smoothingAlpha) * prev.y⟩

/-- Second loop of `GestureAgent::findNearestKey` (gesture_agent.h:397-404):
nearest center, starting from the sentinel `1e18`; no maximum tolerance. -/
def gaNearestGo (p : PointQ) : List (ℕ × GaKey) → ℚ → Option ℕ → Option ℕ
  | [], _, bk => bk
  | (i, k) :: rest, best, bk =>
    let d2 := distanceSquaredTo k.center p
    if d2 < best then gaNearestGo p rest d2 (some i)
    else gaNearestGo p rest best bk

/-- Embeds `GestureAgent::findNearestKey` (gesture_agent.h:386-407): a key
containing the point wins (first loop); otherwise the nearest center wins —
with no distance threshold. -/
def gaFindNearestKey (keys : List GaKey) (p : PointQ) : Option ℕ :=
  match keys.enum.find? (fun ik => ik.2.rect.containsB p) with
  | some ik => some ik.1
  | none => gaNearestGo p keys.enum (10 ^ 18) none

/-- Embeds `GestureAgent::shouldSwitchKey` (gesture_agent.h:409-431) for the
non-null case (its call site passes keys from `keys_`): inside-rect wins, or a
decisive distance win by both the ratio and the absolute gap.  -/
def gaShouldSwitchKey (cfg : GestureConfig) (curK candK : GaKey) (p : PointQ) : Bool :=
  if candK.rect.containsB p then true
  else
    sqrtLtMulB (distanceSquaredTo candK.center p) (distanceSquaredTo curK.center p)
      cfg.hysteresisRatio &&
    sqrtDiffGtB (distanceSquaredTo curK.center p) (distanceSquaredTo candK.center p)
      cfg.minDistanceGap

/-- Main loop of `GestureAgent::mapPathToKeys` (gesture_agent.h:443-476), with
local hysteresis state (current key, candidate key, candidate count). -/
def gaMapLoop (cfg : GestureConfig) (keys : List GaKey) :
    List PathPt → Option ℕ → Option ℕ → ℕ → List String
  | [], _, _, _ => []
  | pt :: rest, cur, candK, candC =>
    match gaFindNearestKey keys pt.layout with
    | none => gaMapLoop cfg keys rest cur candK candC
    | some bi =>
      match cur with
      | none => (keys.getD bi gaDefKey).id :: gaMapLoop cfg keys rest (some bi) candK candC
      | some ci =>
        if bi = ci then gaMapLoop cfg keys rest (some ci) candK candC
        else
          if gaShouldSwitchKey cfg (keys.getD ci gaDefKey) (keys.getD bi gaDefKey) pt.layout then
            (keys.getD bi gaDefKey).id :: gaMapLoop cfg keys rest (some bi) none 0
          else
            let candC' := if candK = some bi then candC + 1 else 1
            if cfg.minConsecutiveSamples ≤ candC' then
              (keys.getD bi gaDefKey).id :: gaMapLoop cfg keys rest (some bi) none 0
            else
              gaMapLoop cfg keys rest (some ci) (some bi) candC'

/-- Embeds `GestureAgent::mapPathToKeys` (gesture_agent.h:433-479). -/
def gaMapPathToKeys (s : GAState) : List String :=
  if s.path = [] ∨ s.keys = [] then []
  else removeBouncesAndDuplicates s.cfg.minDwellForBounce
    (gaMapLoop s.cfg s.keys s.path none none 0)

/-- Embeds `GestureAgent::reset` (gesture_agent.h:358-364). -/
def gaReset (s : GAState) : GAState :=
  { s with state := .Idle, path := [], currentKey := none,
           candidateKey := none, candidateCount := 0 }

/-- Embeds `GestureAgent::pointerDown` (gesture_agent.h:258-270): reset,
record start info, seed the smoother, transition to `TapPending`. -/
def gaPointerDown (s : GAState) (w l : PointQ) (t : ℕ) : GAState :=
  { gaReset s with
    state := .TapPending, startPosWindow := w, startPosLayout := l,
    startTime := t, lastSmoothedWindow := w, lastSmoothedLayout := l }

/-- Embeds `GestureAgent::shouldAddSample` (gesture_agent.h:376-384). -/
def gaShouldAddSample (s : GAState) (candidate : PathPt) : Bool :=
  match s.path.getLast? with
  | none => true
  | some last =>
    sqrtGeB (distanceSquaredTo candidate.window last.window) s.cfg.resampleDistance

/-- Embeds `GestureAgent::pointerMove` (gesture_agent.h:272-313).  In
`TapPending`, the deadzone test uses the raw window position and the wrapped
`uint64` time difference: `dist > deadzoneRadius && dt > timeThresholdMs`;
on success the gesture's start point becomes the first path sample.  In
`Swiping`, the smoothed sample is appended when it clears the resample
distance, and the smoother state advances. -/
def gaPointerMove (s : GAState) (w l : PointQ) (t : ℕ) : GAState :=
  if s.state = .Idle then s
  else
    let sw := gaSmooth s.cfg w s.lastSmoothedWindow
    let sl := gaSmooth s.cfg l s.lastSmoothedLayout
    let s1 :=
      if s.state = .TapPending then
        if sqrtGtB (distanceSquaredTo s.startPosWindow w) s.cfg.deadzoneRadius &&
           (if s.cfg.timeThresholdMs < ((wrapSub t s.startTime : ℕ) : ℚ) then true
            else false) then
          { s with state := .Swiping,
                   path := s.path ++ [⟨s.startPosWindow, s.startPosLayout, s.startTime⟩] }
        else s
      else s
    if s1.state = .Swiping then
      let cand : PathPt := ⟨sw, sl, t⟩
      let s2 := if gaShouldAddSample s1 cand then { s1 with path := s1.path ++ [cand] }
                else s1
      { s2 with lastSmoothedWindow := sw, lastSmoothedLayout := sl }
    else s1

/-- The key id a tap reports: `key ? key->id : ""` (gesture_agent.h:325). -/
def gaTapKeyId (keys : List GaKey) (p : PointQ) : String :=
  match gaFindNearestKey keys p with
  | some i => (keys.getD i gaDefKey).id
  | none => ""

/-- Embeds `GestureAgent::pointerUp` (gesture_agent.h:315-356).  From
`TapPending`: emit a tap for the nearest key to the start position, end Idle.
From `Swiping`: append the final smoothed point, emit the swipe result
(path, key sequence, wrapped duration), end Idle.  Otherwise just go Idle. -/
def gaPointerUp (s : GAState) (w l : PointQ) (t : ℕ) : GAState × List GOut :=
  if s.state = .TapPending then
    ({ s with state := .Idle }, [.tapped (gaTapKeyId s.keys s.startPosLayout) s.startPosLayout])
  else if s.state = .Swiping then
    let sw := gaSmooth s.cfg w s.lastSmoothedWindow
    let sl := gaSmooth s.cfg l s.lastSmoothedLayout
    let s1 := { s with path := s.path ++ [⟨sw, sl, t⟩] }
    ({ s1 with state := .Idle },
      [.swiped s1.path (gaMapPathToKeys s1) ((wrapSub t s.startTime : ℕ) : ℚ)])
  else ({ s with state := .Idle }, [])

/-- One input event processed by the agent. -/
def gaStep (s : GAState) (e : GEvent) : GAState × List GOut :=
  match e with
  | .down w l t => (gaPointerDown s w l t, [])
  | .move w l t => (gaPointerMove s w l t, [])
  | .up w l t => gaPointerUp s w l t
  | .reset => (gaReset s, [])

/-- A sequence of input events processed by the agent, collecting outputs. -/
def gaRun (s : GAState) : List GEvent → GAState × List GOut
  | [] => (s, [])
  | e :: es =>
    let r := gaStep s e
    let r2 := gaRun r.1 es
    (r2.1, r.2 ++ r2.2)

/-! ## C8: deadzone gating of the tap/swipe classification -/

theorem iteTF_eq_true (p : Prop) [Decidable p] :
    ((if p then true else false) = true) ↔ p := by
  split_ifs with h <;> simp [h]

theorem sqrtGtB_eq_false_of_le (dsq r : ℚ) (hr : 0 ≤ r) (h : dsq ≤ r * r) :
    sqrtGtB dsq r = false := by
  unfold sqrtGtB
  rw [if_neg (not_lt.mpr hr), if_neg (not_lt.mpr h)]

/-- A pointer-move in `TapPending` whose raw window position is still within
the deadzone radius of the start position leaves the agent state unchanged. -/
theorem gaPointerMove_within_deadzone (s : GAState) (w l : PointQ) (t : ℕ)
    (hTP : s.state = .TapPending) (hr : 0 ≤ s.cfg.deadzoneRadius)
    (hd : distanceSquaredTo s.startPosWindow w ≤
      s.cfg.deadzoneRadius * s.cfg.deadzoneRadius) :
    gaPointerMove s w l t = s := by
  unfold gaPointerMove
  rw [if_neg (by rw [hTP]; intro hc; cases hc)]
  rw [if_pos hTP]
  rw [sqrtGtB_eq_false_of_le _ _ hr hd]
  simp only [Bool.false_and, Bool.false_eq_true, if_false]
  rw [if_neg (by rw [hTP]; intro hc; cases hc)]

/-- Stepping a `TapPending` state through any list of deadzone-respecting
move events followed by a pointer-up yields exactly one tap output. -/
theorem gaRun_tap_of_moves_within (s : GAState) (moves : List GEvent)
    (hTP : s.state = .TapPending) (hr : 0 ≤ s.cfg.deadzoneRadius)
    (hmoves : ∀ e ∈ moves, ∃ w l t, e = GEvent.move w l t ∧
      distanceSquaredTo s.startPosWindow w ≤
        s.cfg.deadzoneRadius * s.cfg.deadzoneRadius)
    (w1 l1 : PointQ) (t1 : ℕ) :
    gaRun s (moves ++ [GEvent.up w1 l1 t1]) =
      (({ s with state := .Idle } : GAState),
        [GOut.tapped (gaTapKeyId s.keys s.startPosLayout) s.startPosLayout]) := by
  induction moves with
  | nil =>
    show gaRun s [GEvent.up w1 l1 t1] = _
    rw [gaRun, gaStep]
    rw [gaPointerUp, if_pos hTP]
    rfl
  | cons e rest ih =>
    obtain ⟨w, l, t, he, hd⟩ := hmoves e (List.mem_cons_self e rest)
    subst he
    show gaRun s (GEvent.move w l t :: (rest ++ [GEvent.up w1 l1 t1])) = _
    rw [gaRun, gaStep]
    rw [gaPointerMove_within_deadzone s w l t hTP hr hd]
    rw [ih (fun e he => hmoves e (List.mem_cons_of_mem _ he))]
    rfl

/-- C8: the classifier leaves `TapPending` for `Swiping` only on a
pointer-move that both breaks the deadzone radius (on the raw window
position, measured from the gesture start) and exceeds the configured
minimum elapsed time; consequently, for any gesture whose moves all stay
within the deadzone radius, pointer-up produces exactly one `Tapped` output
for the key nearest to the start position — never a swipe — regardless of
the event timestamps. -/
theorem c8_tapPending_to_swiping_needs_deadzone_and_time :
    (∀ (s : GAState) (e : GEvent), s.state = .TapPending →
      ((gaStep s e).1).state = .Swiping →
      ∃ w l t, e = GEvent.move w l t ∧
        sqrtGtB (distanceSquaredTo s.startPosWindow w) s.cfg.deadzoneRadius = true ∧
        s.cfg.timeThresholdMs < ((wrapSub t s.startTime : ℕ) : ℚ)) ∧
    (∀ (cfg : GestureConfig), 0 ≤ cfg.deadzoneRadius →
      ∀ (keys : List GaKey) (w0 l0 : PointQ) (t0 : ℕ) (moves : List GEvent)
        (w1 l1 : PointQ) (t1 : ℕ),
      (∀ e ∈ moves, ∃ w l t, e = GEvent.move w l t ∧
        distanceSquaredTo w0 w ≤ cfg.deadzoneRadius * cfg.deadzoneRadius) →
      (gaRun (initGA cfg keys)
          (GEvent.down w0 l0 t0 :: (moves ++ [GEvent.up w1 l1 t1]))).2 =
        [GOut.tapped (gaTapKeyId keys l0) l0]) := by
  constructor
  · intro s e hTP hSw
    cases e with
    | down w l t =>
      exfalso
      simp only [gaStep, gaPointerDown] at hSw
      cases hSw
    | reset =>
      exfalso
      simp only [gaStep, gaReset] at hSw
      cases hSw
    | up w l t =>
      exfalso
      simp only [gaStep, gaPointerUp] at hSw
      rw [if_pos hTP] at hSw
      cases hSw
    | move w l t =>
      refine ⟨w, l, t, rfl, ?_⟩
      simp only [gaStep] at hSw
      unfold gaPointerMove at hSw
      rw [if_neg (by rw [hTP]; intro hc; cases hc), if_pos hTP] at hSw
      by_cases hg : (sqrtGtB (distanceSquaredTo s.startPosWindow w) s.cfg.deadzoneRadius &&
          (if s.cfg.timeThresholdMs < ((wrapSub t s.startTime : ℕ) : ℚ) then true
           else false)) = true
      · rw [Bool.and_eq_true, iteTF_eq_true] at hg
        exact hg
      · exfalso
        rw [if_neg hg] at hSw
        rw [if_neg (by rw [hTP]; intro hc; cases hc)] at hSw
        rw [hTP] at hSw
        cases hSw
  · intro cfg hr keys w0 l0 t0 moves w1 l1 t1 hmoves
    show (gaRun (initGA cfg keys) (GEvent.down w0 l0 t0 :: (moves ++ [GEvent.up w1 l1 t1]))).2 = _
    rw [gaRun, gaStep]
    have hdown :
        gaPointerDown (initGA cfg keys) w0 l0 t0 =
          { initGA cfg keys with
            state := .TapPending, startPosWindow := w0, startPosLayout := l0,
            startTime := t0, lastSmoothedWindow := w0, lastSmoothedLayout := l0 } := rfl
    rw [hdown]
    rw [gaRun_tap_of_moves_within _ moves rfl hr (by exact hmoves) w1 l1 t1]
    rfl

/-- C8 witness: a 2000 ms press on key "a" with a 4-pixel wiggle (inside the
10-pixel deadzone) taps "a". -/
theorem c8_tapPending_witness :
    (gaRun (initGA {} [gaKeyOf "a" ⟨0, 0, 10, 10⟩])
        [GEvent.down ⟨1, 1⟩ ⟨1, 1⟩ 0, GEvent.move ⟨5, 1⟩ ⟨5, 1⟩ 1000,
         GEvent.up ⟨5, 1⟩ ⟨5, 1⟩ 2000]).2 = [GOut.tapped "a" ⟨1, 1⟩] := by
  have h := c8_tapPending_to_swiping_needs_deadzone_and_time.2 {}
    (by norm_num) [gaKeyOf "a" ⟨0, 0, 10, 10⟩] ⟨1, 1⟩ ⟨1, 1⟩ 0
    [GEvent.move ⟨5, 1⟩ ⟨5, 1⟩ 1000] ⟨5, 1⟩ ⟨5, 1⟩ 2000 ?_
  · have hshape :
        ([GEvent.down ⟨1, 1⟩ ⟨1, 1⟩ 0, GEvent.move ⟨5, 1⟩ ⟨5, 1⟩ 1000,
          GEvent.up ⟨5, 1⟩ ⟨5, 1⟩ 2000] : List GEvent) =
        GEvent.down ⟨1, 1⟩ ⟨1, 1⟩ 0 ::
          ([GEvent.move ⟨5, 1⟩ ⟨5, 1⟩ 1000] ++ [GEvent.up ⟨5, 1⟩ ⟨5, 1⟩ 2000]) := rfl
    rw [hshape, h]
    norm_num [gaTapKeyId, gaFindNearestKey, List.enum, List.enumFrom, List.find?,
      RectQ.containsB, gaKeyOf, List.getD]
  · intro e he
    simp only [List.mem_singleton] at he
    subst he
    refine ⟨⟨5, 1⟩, ⟨5, 1⟩, 1000, rfl, ?_⟩
    norm_num [distanceSquaredTo]

/-! ## C9: lifecycle of the path accumulator -/

/-- Helper rewrites for evaluating `GState` comparisons inside `if`s. -/
theorem gstate_simp_1 : (GState.TapPending = GState.Idle) = False := eq_false (by decide)

theorem gstate_simp_2 : (GState.Swiping = GState.Idle) = False := eq_false (by decide)

theorem gstate_simp_3 : (GState.Swiping = GState.TapPending) = False := eq_false (by decide)

theorem gstate_simp_4 : (GState.Idle = GState.TapPending) = False := eq_false (by decide)

theorem gstate_simp_5 : (GState.Idle = GState.Swiping) = False := eq_false (by decide)

theorem gstate_simp_6 : (GState.TapPending = GState.Swiping) = False := eq_false (by decide)

/-- One step preserves "a `TapPending` state has an empty path". -/
theorem gaStep_tapPending_inv (s : GAState) (e : GEvent)
    (h : s.state = .TapPending → s.path = []) :
    ((gaStep s e).1).state = .TapPending → ((gaStep s e).1).path = [] := by
  cases e with
  | down w l t => intro _; rfl
  | reset => intro _; rfl
  | up w l t =>
    intro hTP
    exfalso
    simp only [gaStep, gaPointerUp] at hTP
    split_ifs at hTP
  | move w l t =>
    intro hTP
    simp only [gaStep, gaPointerMove] at hTP ⊢
    split_ifs at hTP ⊢ <;> simp_all

/-- Path samples are only ever created while the classifier is (or just
became) `Swiping`: any step that grows the path starts or ends in `Swiping`. -/
theorem gaStep_path_growth (s : GAState) (e : GEvent)
    (h : s.path.length < ((gaStep s e).1).path.length) :
    s.state = .Swiping ∨ ((gaStep s e).1).state = .Swiping := by
  cases e with
  | down w l t => exact absurd h (by simp [gaStep, gaPointerDown, gaReset])
  | reset => exact absurd h (by simp [gaStep, gaReset])
  | up w l t =>
    simp only [gaStep, gaPointerUp] at h ⊢
    split_ifs at h ⊢ with h1 h2
    · exact absurd h (by simp)
    · exact Or.inl h2
    · exact absurd h (by simp)
  | move w l t =>
    simp only [gaStep, gaPointerMove] at h ⊢
    split_ifs at h ⊢ <;> simp_all

/-- The `TapPending`-has-empty-path invariant holds along any run. -/
theorem gaRun_tapPending_inv (events : List GEvent) :
    ∀ s : GAState, (s.state = .TapPending → s.path = []) →
      ((gaRun s events).1.state = .TapPending → (gaRun s events).1.path = []) := by
  induction events with
  | nil => intro s h; exact h
  | cons e es ih =>
    intro s h
    show (gaRun (gaStep s e).1 es).1.state = _ → (gaRun (gaStep s e).1 es).1.path = []
    exact ih (gaStep s e).1 (gaStep_tapPending_inv s e h)

/-- C9 (amended): path samples are created only while the classifier is
`Swiping` (any step that grows the path starts or ends in `Swiping`), and the
accumulator is cleared by `reset` and at every `pointerDown`; consequently
every reachable `TapPending` state has an empty path.  The accumulator is
*not* cleared on gesture completion, so an `Idle` state reached by finishing
a swipe still holds that swipe's path until the next pointer-down or reset —
see the counterexample. -/
theorem c9_path_lifecycle :
    (∀ s : GAState, (gaReset s).path = [] ∧
      ∀ (w l : PointQ) (t : ℕ), (gaPointerDown s w l t).path = []) ∧
    (∀ (s : GAState) (e : GEvent), s.path.length < ((gaStep s e).1).path.length →
      s.state = .Swiping ∨ ((gaStep s e).1).state = .Swiping) ∧
    (∀ (cfg : GestureConfig) (keys : List GaKey) (events : List GEvent),
      (gaRun (initGA cfg keys) events).1.state = .TapPending →
      (gaRun (initGA cfg keys) events).1.path = []) := by
  refine ⟨fun s => ⟨rfl, fun w l t => rfl⟩, gaStep_path_growth, ?_⟩
  intro cfg keys events
  exact gaRun_tapPending_inv events (initGA cfg keys) (fun _ => rfl)

/-- C9 witness: the amended theorem applied at concrete inputs — after a
bare pointer-down the (TapPending) path is empty, and a path-growing move
step happens in `Swiping`. -/
theorem c9_path_lifecycle_witness :
    ((gaRun (initGA {} []) [GEvent.down ⟨0, 0⟩ ⟨0, 0⟩ 0]).1.path = []) ∧
    ((({ initGA {} [] with state := .Swiping } : GAState).state = .Swiping) ∨
      ((gaStep ({ initGA {} [] with state := .Swiping } : GAState)
          (GEvent.move ⟨9, 0⟩ ⟨9, 0⟩ 5)).1).state = .Swiping) := by
  constructor
  · exact c9_path_lifecycle.2.2 {} [] [GEvent.down ⟨0, 0⟩ ⟨0, 0⟩ 0] rfl
  · exact c9_path_lifecycle.2.1 ({ initGA {} [] with state := .Swiping })
      (GEvent.move ⟨9, 0⟩ ⟨9, 0⟩ 5)
      (by norm_num [gaStep, gaPointerMove, initGA, gaSmooth, gaShouldAddSample,
        gstate_simp_2, gstate_simp_3])

/-- Event sequence of a completed two-sample swipe. -/
def c9Events : List GEvent :=
  [GEvent.down ⟨0, 0⟩ ⟨0, 0⟩ 0, GEvent.move ⟨100, 0⟩ ⟨100, 0⟩ 100,
   GEvent.up ⟨100, 0⟩ ⟨100, 0⟩ 200]

/-- C9 counterexample: after a completed swipe the classifier is back in
`Idle` but the accumulated path has *not* been cleared (pointerUp transitions
`Swiping → Completed → Idle` without touching `path_`), refuting "in every
reachable Idle state the accumulated path is empty". -/
theorem c9_idle_retains_path_counterexample :
    (gaRun (initGA {} []) c9Events).1.state = .Idle ∧
    (gaRun (initGA {} []) c9Events).1.path ≠ [] := by
  norm_num [c9Events, gaRun, gaStep, gaPointerDown, gaPointerMove, gaPointerUp,
    gaReset, initGA, gaSmooth, gaShouldAddSample, sqrtGtB, sqrtGeB, wrapSub,
    distanceSquaredTo, gaMapPathToKeys, gaTapKeyId, gaFindNearestKey, List.enum,
    List.enumFrom, List.cons_ne_nil, gstate_simp_1, gstate_simp_2, gstate_simp_3,
    gstate_simp_4, gstate_simp_5, gstate_simp_6]

/-! ## C7: key-sequence extractor edge cases -/

theorem findBestKeyGo_ne_none_low (pt : PointQ) :
    ∀ (l : List (ℕ × Key)) (best : ℚ) (bk : Option ℕ),
      best ≤ 100 * 100 → bk ≠ none → findBestKeyGo pt l best bk ≠ none := by
  intro l
  induction l with
  | nil =>
    intro best bk hb hbk
    unfold findBestKeyGo
    rw [if_neg (not_lt.mpr hb)]
    exact hbk
  | cons ik rest ih =>
    intro best bk hb hbk
    obtain ⟨i, k⟩ := ik
    simp only [findBestKeyGo]
    split_ifs with h1 h2
    · simp
    · exact ih _ _ (le_trans (le_of_lt h2) hb) (by simp)
    · exact ih _ _ hb hbk

theorem findBestKeyGo_isSome (pt : PointQ) :
    ∀ (l : List (ℕ × Key)) (best : ℚ) (bk : Option ℕ),
      (bk = none → best = 10 ^ 18) →
      (∃ ik ∈ l, distanceSquaredTo pt ik.2.center ≤ 100 * 100) →
      findBestKeyGo pt l best bk ≠ none := by
  intro l
  induction l with
  | nil =>
    intro best bk _ hex
    simp at hex
  | cons ik rest ih =>
    intro best bk hinv hex
    obtain ⟨i, k⟩ := ik
    simp only [findBestKeyGo]
    split_ifs with h1 h2
    · simp
    · rcases hex with ⟨jk, hmem, hd⟩
      rcases List.mem_cons.mp hmem with rfl | hmem2
      · exact findBestKeyGo_ne_none_low pt rest _ _ hd (by simp)
      · exact ih _ _ (fun h => nomatch h) ⟨jk, hmem2, hd⟩
    · rcases hex with ⟨jk, hmem, hd⟩
      rcases List.mem_cons.mp hmem with rfl | hmem2
      · have hble : best ≤ 100 * 100 := le_trans (not_lt.mp h2) hd
        have hbk : bk ≠ none := by
          intro h
          rw [hinv h] at hble
          norm_num at hble
        exact findBestKeyGo_ne_none_low pt rest best bk hble hbk
      · exact ih best bk hinv ⟨jk, hmem2, hd⟩

theorem findBestKey_isSome (keys : List Key) (pt : PointQ)
    (h : ∃ k ∈ keys, distanceSquaredTo pt k.center ≤ 100 * 100) :
    findBestKey keys pt ≠ none := by
  unfold findBestKey
  apply findBestKeyGo_isSome
  · intro _; rfl
  · obtain ⟨k, hk, hd⟩ := h
    obtain ⟨i, hi, hget⟩ := List.mem_iff_getElem.mp hk
    refine ⟨(i, k), ?_, hd⟩
    rw [List.mk_mem_enum_iff_getElem?]
    exact List.getElem?_eq_some.mpr ⟨hi, hget⟩

theorem findBestKeyGo_none_far (pt : PointQ) :
    ∀ (l : List (ℕ × Key)) (best : ℚ) (bk : Option ℕ),
      (∀ ik ∈ l, ik.2.bounds.containsB pt = false ∧
        100 * 100 < distanceSquaredTo pt ik.2.center) →
      100 * 100 < best → findBestKeyGo pt l best bk = none := by
  intro l
  induction l with
  | nil =>
    intro best bk _ hb
    unfold findBestKeyGo
    rw [if_pos hb]
  | cons ik rest ih =>
    intro best bk hfar hb
    obtain ⟨i, k⟩ := ik
    obtain ⟨hc, hd⟩ := hfar (i, k) (List.mem_cons_self _ _)
    simp only [findBestKeyGo]
    rw [hc]
    simp only [Bool.false_eq_true, if_false]
    split_ifs with h2
    · exact ih _ _ (fun jk hjk => hfar jk (List.mem_cons_of_mem _ hjk)) hd
    · exact ih _ _ (fun jk hjk => hfar jk (List.mem_cons_of_mem _ hjk)) hb

theorem findBestKey_none_far (keys : List Key) (pt : PointQ)
    (h : ∀ k ∈ keys, k.bounds.containsB pt = false ∧
      100 * 100 < distanceSquaredTo pt k.center) :
    findBestKey keys pt = none := by
  unfold findBestKey
  apply findBestKeyGo_none_far
  · intro ik hik
    have : ik.2 ∈ keys := List.getElem?_mem (List.mem_enum_iff_getElem?.mp hik)
    exact h ik.2 this
  · norm_num

theorem swipeLoop_nil_of_none (keys : List Key) :
    ∀ (path : List PointQ) (cur : Option ℕ) (consec : ℕ) (candK : Option ℕ) (candC : ℕ),
      (∀ pt ∈ path, findBestKey keys pt = none) →
      swipeLoop keys path cur consec candK candC = [] := by
  intro path
  induction path with
  | nil => intro cur consec candK candC _; rfl
  | cons pt rest ih =>
    intro cur consec candK candC h
    unfold swipeLoop
    rw [h pt (List.mem_cons_self _ _)]
    exact ih cur consec candK candC (fun q hq => h q (List.mem_cons_of_mem _ hq))

theorem removeBounces_singleton (m : ℕ) (x : String) :
    removeBouncesAndDuplicates m [x] = [x] := rfl

/-- C7 (amended): for the `SwipeEngine` extractor the claim holds: an empty
path maps to the empty sequence; a single-point path within the 100px
tolerance of some key maps to a single-key sequence; a path all of whose
points are outside every key's rectangle and beyond the 100px tolerance of
every key center maps to the empty sequence.  The `GestureAgent` variant maps
an empty path to the empty sequence, but its `findNearestKey` has *no*
maximum tolerance: an out-of-tolerance point is mapped to the nearest key
rather than rejected as noise — see the counterexample. -/
theorem c7_extractor_edge_cases :
    (∀ keys : List Key, mapPathToSequence keys [] = []) ∧
    (∀ (keys : List Key) (pt : PointQ),
      (∃ k ∈ keys, distanceSquaredTo pt k.center ≤ 100 * 100) →
      ∃ id, mapPathToSequence keys [pt] = [id]) ∧
    (∀ (keys : List Key) (path : List PointQ),
      (∀ pt ∈ path, ∀ k ∈ keys, k.bounds.containsB pt = false ∧
        100 * 100 < distanceSquaredTo pt k.center) →
      mapPathToSequence keys path = []) ∧
    (∀ s : GAState, s.path = [] → gaMapPathToKeys s = []) := by
  refine ⟨?_, ?_, ?_, ?_⟩
  · intro keys
    unfold mapPathToSequence
    rw [if_pos (Or.inl rfl)]
  · intro keys pt h
    have hkeys : keys ≠ [] := by
      rintro rfl
      obtain ⟨k, hk, _⟩ := h
      cases hk
    obtain ⟨bi, hbi⟩ := Option.ne_none_iff_exists'.mp (findBestKey_isSome keys pt h)
    refine ⟨(keys.getD bi defKey).id, ?_⟩
    have hloop : swipeLoop keys [pt] none 0 none 0 = [(keys.getD bi defKey).id] := by
      unfold swipeLoop
      rw [hbi]
      rfl
    simp only [mapPathToSequence]
    rw [if_neg (by simp [hkeys]), hloop]
    rw [if_neg (by simp)]
    exact removeBounces_singleton _ _
  · intro keys path h
    by_cases hp : path = []
    · subst hp
      unfold mapPathToSequence
      rw [if_pos (Or.inl rfl)]
    · by_cases hk : keys = []
      · unfold mapPathToSequence
        rw [if_pos (Or.inr hk)]
      · have hloop : swipeLoop keys path none 0 none 0 = [] :=
          swipeLoop_nil_of_none keys path none 0 none 0
            (fun pt hpt => findBestKey_none_far keys pt (h pt hpt))
        simp only [mapPathToSequence]
        rw [if_neg (by simp [hp, hk]), hloop, if_pos rfl]
  · intro s hs
    unfold gaMapPathToKeys
    rw [if_pos (Or.inl hs)]

/-- A gesture-agent state holding a single path point far away from the only
key ("a" occupies `[0,10]×[0,10]`, the point is `(1000,1000)`). -/
def c7GaState : GAState :=
  { initGA {} [gaKeyOf "a" ⟨0, 0, 10, 10⟩] with
    state := .Swiping,
    path := [⟨⟨1000, 1000⟩, ⟨1000, 1000⟩, 0⟩] }

/-- C7 counterexample: the point `(1000,1000)` is outside the rectangle of
every key and far beyond the 100px tolerance of every key center, yet
`GestureAgent::mapPathToKeys` produces `["a"]` (nearest key, no noise
rejection) instead of the empty sequence the claim requires. -/
theorem c7_gesture_no_noise_tolerance_counterexample :
    gaMapPathToKeys c7GaState = ["a"] ∧
    ∀ k ∈ c7GaState.keys, k.rect.containsB (⟨1000, 1000⟩ : PointQ) = false ∧
      100 * 100 < distanceSquaredTo (⟨1000, 1000⟩ : PointQ) k.center := by
  constructor
  · norm_num [gaMapPathToKeys, c7GaState, initGA, gaMapLoop, gaFindNearestKey,
      gaNearestGo, List.enum, List.enumFrom, List.find?, RectQ.containsB, gaKeyOf,
      distanceSquaredTo, List.getD, removeBouncesAndDuplicates, dwells, dwellGo,
      bounceGo, bounceSkip, collapse, collapseGo, List.cons_ne_nil]
  · intro k hk
    have hk2 : k = gaKeyOf "a" ⟨0, 0, 10, 10⟩ := by
      simpa [c7GaState, initGA] using hk
    subst hk2
    norm_num [RectQ.containsB, distanceSquaredTo, gaKeyOf]

/-- C7 witness: the amended theorem applied at a concrete one-key layout — a
single point at the key center yields a one-key sequence, and a far-away
two-point path yields the empty sequence. -/
theorem c7_extractor_edge_cases_witness :
    (∃ id, mapPathToSequence [⟨"a", "A", ⟨0, 0, 10, 10⟩, ⟨5, 5⟩, false⟩]
      [⟨5, 5⟩] = [id]) ∧
    mapPathToSequence [⟨"a", "A", ⟨0, 0, 10, 10⟩, ⟨5, 5⟩, false⟩]
      [⟨1000, 1000⟩, ⟨2000, 0⟩] = [] := by
  constructor
  · exact c7_extractor_edge_cases.2.1 _ ⟨5, 5⟩
      ⟨⟨"a", "A", ⟨0, 0, 10, 10⟩, ⟨5, 5⟩, false⟩, by simp, by norm_num [distanceSquaredTo]⟩
  · refine c7_extractor_edge_cases.2.2.1 _ _ ?_
    intro pt hpt k hk
    simp only [List.mem_cons, List.not_mem_nil, or_false] at hpt hk
    subst hk
    rcases hpt with rfl | rfl
    · constructor
      · norm_num [RectQ.containsB]
      · norm_num [distanceSquaredTo]
    · constructor
      · norm_num [RectQ.containsB]
      · norm_num [distanceSquaredTo]

/-! ## Character classification

Embeds the byte-wise `std::isalpha` / `std::tolower` used throughout the
engine sources (ASCII semantics: `isalpha` on `[A-Za-z]`, `tolower` adds 32
to `[A-Z]`). -/

def isalphaB (c : Char) : Bool :=
  if (65 ≤ c.toNat ∧ c.toNat ≤ 90) ∨ (97 ≤ c.toNat ∧ c.toNat ≤ 122) then true else false

def tolowerC (c : Char) : Char :=
  if 65 ≤ c.toNat ∧ c.toNat ≤ 90 then Char.ofNat (c.toNat + 32) else c

/-- The `c - 'a'` bucket index computed on C++ `int`s
(swipe_engine.cpp:196-197, 393-394). -/
def charIdx (c : Char) : ℤ := (c.toNat : ℤ) - 97

/-! ## Dictionary index

Embeds `swipe::DictWord` (swipe_engine.h:96-107), the word-loading loop of
`SwipeEngine::loadDictionary` (swipe_engine.cpp:146-204) and
`SwipeEngine::getShortlist` (swipe_engine.cpp:388-411).

The word file is modelled as an optional list of lines (`none` = the file
failed to open); the frequency file, parsed first into a map in the C++, is
modelled as a lookup function (a missing/empty file is `fun _ => none`).
The 26×26 bucket array, rebuilt from scratch by each load, is modelled by
the derived `bucketOf`: after any load it holds, for each in-range index
pair, exactly the dictionary indices with matching first/last character, in
insertion order. -/

/-- Embeds `swipe::DictWord`: `first`/`last` are lowercased on construction. -/
structure DictWord where
  word : List Char
  freq : ℕ
  first : Char
  last : Char
  len : ℕ
deriving DecidableEq, Repr

/-- The word loop of `SwipeEngine::loadDictionary` (swipe_engine.cpp:172-201):
skip empty lines and lines with a non-alphabetic character; default frequency
1000 for words absent from the frequency map. -/
def buildDict (freqs : List Char → Option ℕ) : List (List Char) → List DictWord
  | [] => []
  | line :: rest =>
    if line = [] then buildDict freqs rest
    else if line.all isalphaB then
      { word := line, freq := (freqs line).getD 1000, len := line.length,
        first := tolowerC (line.headD 'a'),
        last := tolowerC (line.getLastD 'a') } :: buildDict freqs rest
    else buildDict freqs rest

/-- Derived bucket content: dictionary indices whose (first,last) pair maps
to the given in-range index pair, in insertion order — exactly what the
load-loop's `buckets_[fidx][lidx].push_back` accumulates. -/
def bucketOf (dict : List DictWord) (fi li : ℤ) : List ℕ :=
  (List.range dict.length).filter fun i =>
    match dict[i]? with
    | some dw => if charIdx dw.first = fi ∧ charIdx dw.last = li then true else false
    | none => false

/-- Embeds `SwipeEngine::getShortlist` (swipe_engine.cpp:388-411). -/
def getShortlist (dict : List DictWord) (keys : List Char) : List ℕ :=
  match keys with
  | [] => []
  | c0 :: _ =>
    let fidx := charIdx (tolowerC c0)
    let lidx := charIdx (tolowerC (keys.getLastD 'a'))
    if fidx < 0 ∨ 26 ≤ fidx ∨ lidx < 0 ∨ 26 ≤ lidx then []
    else
      (bucketOf dict fidx lidx).filter fun i =>
        match dict[i]? with
        | some dw => if ((dw.len : ℤ) - (keys.length : ℤ)).natAbs ≤ 3 then true else false
        | none => false

/-! ## Engine state and the load operations

Embeds the mutable state of `SwipeEngine` relevant to the claims (`keys_`,
`dictionary_`; `keyIndex_`, `buckets_` and `neighbors_` are rebuilt wholesale
from these on every load and are modelled as derived data) together with
`SwipeEngine::loadLayout` (swipe_engine.cpp:25-140) and
`SwipeEngine::loadDictionary` (swipe_engine.cpp:146-204).

The layout file is modelled post-scan: the ad-hoc substring scanning of
swipe_engine.cpp:43-115 yields per-row `y`/`offset` and per-key
`code`/`label`/`special`/`x`/`w` fields; `none` models a file that failed to
open.  The pixel-space computation (swipe_engine.cpp:116-128) is embedded
exactly, including the `static_cast<int>(kx)` truncation (equal to the floor
for the positive guard under which it is used). -/

structure RawKey where
  code : String
  label : String
  special : Bool
  x : ℚ
  w : ℚ
deriving DecidableEq, Repr

structure RawRow where
  y : ℤ
  offset : ℚ
  keys : List RawKey
deriving DecidableEq, Repr

structure RawLayout where
  keyUnit : ℚ
  keyHeight : ℚ
  keySpacing : ℚ
  rows : List RawRow
deriving DecidableEq, Repr

/-- Pixel-space key construction (swipe_engine.cpp:116-131). -/
def buildKey (keyUnit keyHeight spacing : ℚ) (rowY : ℤ) (rowOffset : ℚ)
    (rk : RawKey) : Key :=
  let kx := rk.x + rowOffset
  let kw := if rk.w ≤ 0 then 1 else rk.w
  let bx := kx * keyUnit + (if 0 < kx then (⌊kx⌋ : ℚ) * spacing else 0)
  let bY := (rowY : ℚ) * (keyHeight + spacing)
  let bw := kw * keyUnit + (if 1 < kw then (kw - 1) * spacing else 0)
  { id := rk.code, label := rk.label,
    bounds := ⟨bx, bY, bw, keyHeight⟩,
    center := ⟨bx + bw / 2, bY + keyHeight / 2⟩,
    isSpecial := rk.special }

/-- Row/key parse loop (swipe_engine.cpp:62-136) with the metric defaulting
of swipe_engine.cpp:51-59. -/
def buildKeys (lay : RawLayout) : List Key :=
  let keyUnit := if lay.keyUnit ≤ 0 then 60 else lay.keyUnit
  let keyHeight := if lay.keyHeight ≤ 0 then 50 else lay.keyHeight
  let spacing := if lay.keySpacing < 0 then 6 else lay.keySpacing
  (lay.rows.map fun row =>
    row.keys.map (buildKey keyUnit keyHeight spacing row.y row.offset)).join

/-- The engine state touched by the load operations. -/
structure SwipeState where
  keys : List Key
  dictionary : List DictWord
deriving DecidableEq, Repr

/-- Embeds `SwipeEngine::loadLayout` (swipe_engine.cpp:25-140): `keys_` (and
`keyIndex_`) are cleared *before* the file is opened; an unopenable file
returns `false` with the layout already wiped; otherwise the parsed keys are
stored and success is `!keys_.empty()`. -/
def loadLayout (st : SwipeState) (input : Option RawLayout) : Bool × SwipeState :=
  let st1 := { st with keys := [] }
  match input with
  | none => (false, st1)
  | some lay =>
    let ks := buildKeys lay
    (if ks = [] then false else true, { st1 with keys := ks })

/-- Embeds `SwipeEngine::loadDictionary` (swipe_engine.cpp:146-204):
`dictionary_` and the buckets are cleared *before* the word file is opened;
an unopenable word file returns `false` with the dictionary already wiped;
otherwise the parsed words are stored and success is `!dictionary_.empty()`. -/
def loadDictionary (st : SwipeState) (wordsFile : Option (List (List Char)))
    (freqs : List Char → Option ℕ) : Bool × SwipeState :=
  let st1 := { st with dictionary := [] }
  match wordsFile with
  | none => (false, st1)
  | some lines =>
    let d := buildDict freqs lines
    (if d = [] then false else true, { st1 with dictionary := d })

/-! ## Bounded Levenshtein distance

Embeds `SwipeEngine::levenshtein` (swipe_engine.cpp:417-451): two-row DP with
case-insensitive substitution cost, a length-difference pre-check and a
per-row minimum early exit, both returning `limit + 1`.  The reference
specification `levD` is the textbook recursive Levenshtein distance over the
same case-insensitive cost. -/

/-- Substitution cost `(tolower(s1[i-1]) == tolower(s2[j-1])) ? 0 : 1`
(swipe_engine.cpp:438). -/
def costCI (a b : Char) : ℕ := if tolowerC a = tolowerC b then 0 else 1

/-- Inner column loop (swipe_engine.cpp:437-441): given `left = curr[j-1]`,
the two needed `prev` entries and the remaining `s2` suffix, produce
`curr[j..]`. -/
def rowGo (x : Char) : ℕ → List ℕ → List Char → List ℕ
  | left, p0 :: p1 :: ps, y :: ys =>
    let v := min (left + 1) (min (p1 + 1) (p0 + costCI x y))
    v :: rowGo x v (p1 :: ps) ys
  | _, _, _ => []

/-- Minimum of a row (`minRow`, swipe_engine.cpp:435-441). -/
def minND : List ℕ → ℕ
  | [] => 0
  | a :: l => l.foldl min a

/-- Row loop with early exit (swipe_engine.cpp:433-448): process each `s1`
character, abort with `limit + 1` when a row minimum exceeds `limit`,
otherwise return `prev[m]`. -/
def levLoop (s2 : List Char) (limit : ℕ) : List ℕ → ℕ → List Char → ℕ
  | prev, _, [] => prev.getLastD 0
  | prev, i, x :: xs =>
    let curr := i :: rowGo x i prev s2
    if limit < minND curr then limit + 1
    else levLoop s2 limit curr (i + 1) xs

/-- Embeds `SwipeEngine::levenshtein` (swipe_engine.cpp:417-451). -/
def levenshtein (s1 s2 : List Char) (limit : ℕ) : ℕ :=
  if (limit : ℤ) < ((s1.length : ℤ) - (s2.length : ℤ)).natAbs then limit + 1
  else levLoop s2 limit (List.range (s2.length + 1)) 1 s1

/-! ## Bigram overlap

Embeds `SwipeEngine::countBigramOverlap` (swipe_engine.cpp:457-480): the
`std::set<uint16_t>` of encoded adjacent lowercase-alpha pairs is a
`Finset ℕ`, and the count is the intersection's size. -/

def bigramCodes (s : List Char) : Finset ℕ :=
  (((s.zip s.tail).filter fun p => isalphaB p.1 && isalphaB p.2).map fun p =>
    ((tolowerC p.1).toNat - 97) * 26 + ((tolowerC p.2).toNat - 97)).toFinset

def countBigramOverlap (ks w : List Char) : ℕ :=
  (bigramCodes ks ∩ bigramCodes w).card

/-! ## Candidate scoring and generation

Embeds `SwipeEngine::findKeyById` (swipe_engine.cpp:265-271, through the
`keyIndex_` map in which the last insertion for an id wins),
`SwipeEngine::computeSpatialScore` (swipe_engine.cpp:486-533),
`SwipeEngine::scoreCandidate` (swipe_engine.cpp:539-559) and
`SwipeEngine::generateCandidates` (swipe_engine.cpp:565-605).

Scores involve `std::log1p` and Euclidean (`std::sqrt`) distances, so they
are embedded in `ℝ`.  `std::sort` with the comparator `a.score > b.score`
guarantees only a permutation of its input that is sorted with respect to
the comparator — the order of equal-score elements is unspecified — so the
sort is embedded as the relation `SortResultOf` and candidate generation as
the relation `GenerateCandidatesRel` over all results the C++ may return. -/

/-- Embeds `SwipeEngine::findKeyById`: `keyIndex_[id]` holds the index of the
last key inserted with that id (swipe_engine.cpp:130). -/
def findKeyById (keys : List Key) (id : String) : Option Key :=
  keys.reverse.find? fun k => k.id = id

/-- Loop of `SwipeEngine::computeSpatialScore` (swipe_engine.cpp:494-523):
accumulate center distances of per-letter key pairs (when both letters have
keys), advancing the longer side's index (both when equal).  Returns the
total distance and the pair count. -/
noncomputable def spatialGo (keys : List Key) : List Char → List Char → ℝ × ℕ
  | [], _ => (0, 0)
  | _ :: _, [] => (0, 0)
  | kc :: ks, wc :: ws =>
    let contrib : ℝ × ℕ :=
      match findKeyById keys (String.singleton (tolowerC kc)),
            findKeyById keys (String.singleton (tolowerC wc)) with
      | some kk, some wk =>
        (Real.sqrt ((distanceSquaredTo kk.center wk.center : ℚ) : ℝ), 1)
      | _, _ => (0, 0)
    let rest :=
      if ws.length < ks.length then spatialGo keys ks (wc :: ws)
      else if ks.length < ws.length then spatialGo keys (kc :: ks) ws
      else spatialGo keys ks ws
    (contrib.1 + rest.1, contrib.2 + rest.2)
  termination_by ks ws => ks.length + ws.length
  decreasing_by
    · simp only [List.length_cons]; omega
    · simp only [List.length_cons]; omega
    · simp only [List.length_cons]; omega

/-- Embeds `SwipeEngine::computeSpatialScore` (swipe_engine.cpp:486-533):
zero when no pairs, otherwise `max(-1, 1 - avgDist/60)`. -/
noncomputable def computeSpatialScore (keys : List Key) (ks w : List Char) : ℝ :=
  let r := spatialGo keys ks w
  if r.2 = 0 then 0 else max (-1) (1 - r.1 / r.2 / 60)

/-- Embeds `SwipeEngine::scoreCandidate` (swipe_engine.cpp:539-559):
`W_EDIT_DISTANCE*editDist + W_BIGRAM_OVERLAP*bigrams +
W_FREQUENCY*log1p(1000/(freq+1)) + W_SPATIAL*spatial`. -/
noncomputable def scoreCandidate (keys : List Key) (ks : List Char) (dw : DictWord) : ℝ :=
  (-22 / 10 : ℝ) * (levenshtein ks dw.word 7 : ℕ) +
  1 * (countBigramOverlap ks dw.word : ℕ) +
  (8 / 10 : ℝ) * Real.log (1 + 1000 / ((dw.freq : ℝ) + 1)) +
  (15 / 10 : ℝ) * computeSpatialScore keys ks dw.word

/-- Embeds `swipe::Candidate` (swipe_engine.h:112-124). -/
structure Candidate where
  word : List Char
  score : ℝ
  editDistance : ℕ
  bigramOverlap : ℕ
  freqContribution : ℝ
  spatialContribution : ℝ

open Classical in
/-- The deterministic part of `SwipeEngine::generateCandidates`
(swipe_engine.cpp:571-592): score each shortlisted word and keep those with
`score >= MIN_CANDIDATE_SCORE = -5.0`, in shortlist order. -/
noncomputable def passingCandidates (st : SwipeState) (ks : List Char) : List Candidate :=
  (getShortlist st.dictionary ks).filterMap fun idx =>
    match st.dictionary[idx]? with
    | none => none
    | some dw =>
      if (-5 : ℝ) ≤ scoreCandidate st.keys ks dw then
        some { word := dw.word, score := scoreCandidate st.keys ks dw,
               editDistance := levenshtein ks dw.word 7,
               bigramOverlap := countBigramOverlap ks dw.word,
               freqContribution := (8 / 10 : ℝ) * Real.log (1 + 1000 / ((dw.freq : ℝ) + 1)),
               spatialContribution := (15 / 10 : ℝ) * computeSpatialScore st.keys ks dw.word }
      else none

/-- Sortedness with respect to the `std::sort` comparator
`[](a, b) { return a.score > b.score; }`: no later element scores higher. -/
def SortedBy {α : Type} (f : α → ℝ) (l : List α) : Prop :=
  l.Pairwise fun a b => f b ≤ f a

/-- Postcondition of `std::sort(v, cmp)` with the score comparator: some
permutation of the input sorted for the comparator; the relative order of
equal-score elements is unspecified by the C++ standard. -/
def SortResultOf (input output : List Candidate) : Prop :=
  input.Perm output ∧ SortedBy Candidate.score output

/-- Embeds `SwipeEngine::generateCandidates` (swipe_engine.cpp:565-605) as a
relation over every result the C++ may return: a too-short key sequence gives
`{}` (swipe_engine.cpp:567-569); otherwise the filtered candidates are sorted
by descending score and capped at `MAX_CANDIDATES = 8`. -/
def GenerateCandidatesRel (st : SwipeState) (ks : List Char) (res : List Candidate) : Prop :=
  (ks.length < minKeySequenceLength ∧ res = []) ∨
  (minKeySequenceLength ≤ ks.length ∧
    ∃ sorted, SortResultOf (passingCandidates st ks) sorted ∧
      res = sorted.take maxCandidates)

/-! ## SHARK2 final ranking stage

Embeds the sort-and-cap tail of `Shark2Engine::recognize`
(shark2.cpp:653-663): `std::sort` by descending score followed by `resize`
to `maxCandidates` when longer.  The scored candidate list it operates on is
quantified over, and the sort is relational as above. -/

/-- Embeds `shark2::Candidate` (shark2.h:85-93). -/
structure Sh2Candidate where
  word : List Char
  score : ℝ
  shapeDistance : ℝ
  locationDistance : ℝ
  frequencyScore : ℝ

/-- The sort-and-cap tail of `Shark2Engine::recognize` (shark2.cpp:653-663)
as a relation. -/
def Sh2SortCapRel (input : List Sh2Candidate) (maxC : ℕ) (res : List Sh2Candidate) : Prop :=
  ∃ sorted, input.Perm sorted ∧ SortedBy Sh2Candidate.score sorted ∧
    res = sorted.take maxC

/-! ## C2: failed loads -/

theorem mapPathToSequence_nil_keys (path : List PointQ) :
    mapPathToSequence [] path = [] := by
  unfold mapPathToSequence
  rw [if_pos (Or.inr rfl)]

theorem getShortlist_nil_dict (ks : List Char) : getShortlist [] ks = [] := by
  cases ks with
  | nil => rfl
  | cons c rest =>
    simp only [getShortlist]
    split_ifs with h
    · rfl
    · simp [bucketOf]

theorem genCandidatesRel_empty_dict (st : SwipeState) (h : st.dictionary = [])
    (ks : List Char) (res : List Candidate) (hrel : GenerateCandidatesRel st ks res) :
    res = [] := by
  rcases hrel with ⟨_, rfl⟩ | ⟨_, sorted, ⟨hperm, _⟩, rfl⟩
  · rfl
  · have hpass : passingCandidates st ks = [] := by
      unfold passingCandidates
      rw [h, getShortlist_nil_dict]
      rfl
    rw [hpass] at hperm
    rw [List.Perm.eq_nil hperm.symm]
    rfl

/-- C2 (amended): a load operation that fails (returns `false`) leaves the
corresponding state *empty* — the previously loaded layout/dictionary is
wiped at the start of the call, not preserved — while the other component is
untouched; the clearing is wholesale (never a partially populated index),
and recognition calls afterwards degrade to empty results: path mapping with
an empty layout and candidate generation with an empty dictionary both
return `[]`. -/
theorem c2_failed_load_clears_state_and_degrades :
    (∀ (st : SwipeState) (input : Option RawLayout),
      (loadLayout st input).1 = false →
        (loadLayout st input).2.keys = [] ∧
        (loadLayout st input).2.dictionary = st.dictionary ∧
        ∀ path, mapPathToSequence (loadLayout st input).2.keys path = []) ∧
    (∀ (st : SwipeState) (wordsFile : Option (List (List Char)))
        (freqs : List Char → Option ℕ),
      (loadDictionary st wordsFile freqs).1 = false →
        (loadDictionary st wordsFile freqs).2.dictionary = [] ∧
        (loadDictionary st wordsFile freqs).2.keys = st.keys ∧
        ∀ ks res, GenerateCandidatesRel (loadDictionary st wordsFile freqs).2 ks res →
          res = []) := by
  constructor
  · intro st input hfail
    cases input with
    | none => exact ⟨rfl, rfl, fun path => mapPathToSequence_nil_keys path⟩
    | some lay =>
      by_cases hks : buildKeys lay = []
      · have h2 : (loadLayout st (some lay)).2.keys = [] := by
          simp only [loadLayout]
          rw [hks]
        refine ⟨h2, rfl, fun path => ?_⟩
        rw [h2]
        exact mapPathToSequence_nil_keys path
      · exfalso
        simp only [loadLayout, if_neg hks] at hfail
        cases hfail
  · intro st wordsFile freqs hfail
    cases wordsFile with
    | none =>
      exact ⟨rfl, rfl, fun ks res h => genCandidatesRel_empty_dict _ rfl ks res h⟩
    | some lines =>
      by_cases hd : buildDict freqs lines = []
      · have h2 : (loadDictionary st (some lines) freqs).2.dictionary = [] := by
          simp only [loadDictionary]
          rw [hd]
        exact ⟨h2, rfl, fun ks res h => genCandidatesRel_empty_dict _ h2 ks res h⟩
      · exfalso
        simp only [loadDictionary, if_neg hd] at hfail
        cases hfail

def c2Key : Key := ⟨"a", "a", ⟨0, 0, 10, 10⟩, ⟨5, 5⟩, false⟩

def c2Word : DictWord := ⟨['h', 'i'], 5, 'h', 'i', 2⟩

/-- An engine state with a one-key layout and a one-word dictionary loaded. -/
def c2State : SwipeState := ⟨[c2Key], [c2Word]⟩

/-- C2 counterexample: a failed `loadLayout` (respectively `loadDictionary`)
does *not* leave the engine state unchanged — `keys_.clear()` /
`dictionary_.clear()` run before the file-open check, so the previously
loaded layout/dictionary is gone after the failed call. -/
theorem c2_failed_load_mutates_state_counterexample :
    ((loadLayout c2State none).1 = false ∧ (loadLayout c2State none).2 ≠ c2State) ∧
    ((loadDictionary c2State none fun _ => none).1 = false ∧
      (loadDictionary c2State none fun _ => none).2 ≠ c2State) := by
  refine ⟨⟨rfl, ?_⟩, ⟨rfl, ?_⟩⟩
  · intro h
    have hk := congrArg SwipeState.keys h
    rw [show (loadLayout c2State none).2.keys = [] from rfl] at hk
    rw [show c2State.keys = [c2Key] from rfl] at hk
    exact List.noConfusion hk
  · intro h
    have hd := congrArg SwipeState.dictionary h
    rw [show (loadDictionary c2State none fun _ => none).2.dictionary = [] from rfl] at hd
    rw [show c2State.dictionary = [c2Word] from rfl] at hd
    exact List.noConfusion hd

/-- C2 witness: the amended theorem applied to the concrete loaded state and
a file-open failure. -/
theorem c2_failed_load_witness :
    (loadLayout c2State none).2.keys = [] ∧
    (loadDictionary c2State none fun _ => none).2.dictionary = [] :=
  ⟨(c2_failed_load_clears_state_and_degrades.1 c2State none rfl).1,
   (c2_failed_load_clears_state_and_degrades.2 c2State none (fun _ => none) rfl).1⟩

/-! ## C6: shortlist correctness -/

theorem char_toNat_inj {a b : Char} (h : a.toNat = b.toNat) : a = b := by
  have hv : a.val = b.val := by
    have h2 : a.val.toBitVec.toNat = b.val.toBitVec.toNat := h
    exact UInt32.eq_of_toBitVec_eq (BitVec.eq_of_toNat_eq h2)
  exact Char.ext hv

theorem charIdx_inj {a b : Char} (h : charIdx a = charIdx b) : a = b := by
  unfold charIdx at h
  exact char_toNat_inj (by omega)

theorem tolowerC_toNat_of_upper (c : Char) (h : 65 ≤ c.toNat ∧ c.toNat ≤ 90) :
    (tolowerC c).toNat = c.toNat + 32 := by
  unfold tolowerC
  rw [if_pos h]
  rw [Char.ofNat, dif_pos (Or.inl (by omega : c.toNat + 32 < 0xd800))]
  rfl

theorem tolowerC_eq_self (c : Char) (h : ¬(65 ≤ c.toNat ∧ c.toNat ≤ 90)) :
    tolowerC c = c := by
  unfold tolowerC
  rw [if_neg h]

/-- A non-alphabetic character stays outside the `a..z` bucket range after
`tolower`. -/
theorem charIdx_tolowerC_out (c : Char) (h : isalphaB c = false) :
    charIdx (tolowerC c) < 0 ∨ 26 ≤ charIdx (tolowerC c) := by
  unfold isalphaB at h
  split_ifs at h with hc
  push_neg at hc
  rw [tolowerC_eq_self c (by omega)]
  unfold charIdx
  omega

theorem buildDict_mem (freqs : List Char → Option ℕ) :
    ∀ (lines : List (List Char)) (dw : DictWord), dw ∈ buildDict freqs lines →
      dw.first = tolowerC (dw.word.headD 'a') ∧
      dw.last = tolowerC (dw.word.getLastD 'a') ∧
      dw.len = dw.word.length := by
  intro lines
  induction lines with
  | nil => intro dw h; cases h
  | cons line rest ih =>
    intro dw h
    simp only [buildDict] at h
    split_ifs at h with h1 h2
    · exact ih dw h
    · rcases List.mem_cons.mp h with rfl | h3
      · exact ⟨rfl, rfl, rfl⟩
      · exact ih dw h3
    · exact ih dw h

theorem getShortlist_mem (dict : List DictWord) (c0 : Char) (rest : List Char)
    (idx : ℕ) (h : idx ∈ getShortlist dict (c0 :: rest)) :
    ∃ dw, dict[idx]? = some dw ∧
      charIdx dw.first = charIdx (tolowerC c0) ∧
      charIdx dw.last = charIdx (tolowerC ((c0 :: rest).getLastD 'a')) ∧
      ((dw.len : ℤ) - ((c0 :: rest).length : ℤ)).natAbs ≤ 3 := by
  simp only [getShortlist] at h
  split_ifs at h with hrange
  · cases h
  · obtain ⟨hbucket, hlen⟩ := List.mem_filter.mp h
    obtain ⟨_, hcond⟩ := List.mem_filter.mp hbucket
    cases hdict : dict[idx]? with
    | none =>
      rw [hdict] at hcond
      cases hcond
    | some dw =>
      rw [hdict] at hcond hlen
      rw [iteTF_eq_true] at hcond hlen
      exact ⟨dw, rfl, hcond.1, hcond.2, hlen⟩

/-- C6: every dictionary index returned by `getShortlist` for a non-empty
key sequence names a word whose lowercased first letter equals the
lowercased first key, whose lowercased last letter equals the lowercased
last key, and whose length is within the tolerance 3 of the key-sequence
length; a key sequence whose first or last character is non-alphabetic
yields an empty shortlist. -/
theorem c6_shortlist_first_last_length :
    ∀ (lines : List (List Char)) (freqs : List Char → Option ℕ) (ks : List Char),
      ks ≠ [] →
      (∀ idx ∈ getShortlist (buildDict freqs lines) ks,
        ∃ dw, (buildDict freqs lines)[idx]? = some dw ∧
          tolowerC (dw.word.headD 'a') = tolowerC (ks.headD 'a') ∧
          tolowerC (dw.word.getLastD 'a') = tolowerC (ks.getLastD 'a') ∧
          ((dw.word.length : ℤ) - (ks.length : ℤ)).natAbs ≤ 3) ∧
      ((isalphaB (ks.headD 'a') = false ∨ isalphaB (ks.getLastD 'a') = false) →
        getShortlist (buildDict freqs lines) ks = []) := by
  intro lines freqs ks hne
  cases ks with
  | nil => exact absurd rfl hne
  | cons c0 rest =>
    constructor
    · intro idx hidx
      obtain ⟨dw, hdict, hfirst, hlast, hlen⟩ :=
        getShortlist_mem (buildDict freqs lines) c0 rest idx hidx
      obtain ⟨hw1, hw2, hw3⟩ :=
        buildDict_mem freqs lines dw (List.getElem?_mem hdict)
      refine ⟨dw, hdict, ?_, ?_, ?_⟩
      · rw [← hw1]
        exact charIdx_inj hfirst
      · rw [← hw2]
        exact charIdx_inj hlast
      · rw [← hw3]
        exact hlen
    · intro hna
      simp only [getShortlist]
      rcases hna with hna | hna
      · rw [List.headD_cons] at hna
        rcases charIdx_tolowerC_out _ hna with hlt | hge
        · rw [if_pos (Or.inl hlt)]
        · rw [if_pos (Or.inr (Or.inl hge))]
      · rcases charIdx_tolowerC_out _ hna with hlt | hge
        · rw [if_pos (Or.inr (Or.inr (Or.inl hlt)))]
        · rw [if_pos (Or.inr (Or.inr (Or.inr hge)))]

/-- C6 witness: the theorem applied to the one-word dictionary `{hey}` — the
shortlist for keys "hiy" contains index 0 with matching first/last letters
and length within tolerance, and keys starting with a digit shortlist
nothing. -/
theorem c6_shortlist_witness :
    (∃ dw, (buildDict (fun _ => none) [['h', 'e', 'y']])[0]? = some dw ∧
      tolowerC (dw.word.headD 'a') = tolowerC ((['h', 'i', 'y'] : List Char).headD 'a') ∧
      tolowerC (dw.word.getLastD 'a') = tolowerC ((['h', 'i', 'y'] : List Char).getLastD 'a') ∧
      ((dw.word.length : ℤ) - ((['h', 'i', 'y'] : List Char).length : ℤ)).natAbs ≤ 3) ∧
    getShortlist (buildDict (fun _ => none) [['h', 'e', 'y']]) ['1', 'y'] = [] := by
  constructor
  · exact (c6_shortlist_first_last_length [['h', 'e', 'y']] (fun _ => none)
      ['h', 'i', 'y'] (by decide)).1 0 (by decide)
  · exact (c6_shortlist_first_last_length [['h', 'e', 'y']] (fun _ => none)
      ['1', 'y'] (by decide)).2 (Or.inl (by decide))

/-! ## C4: properties of generated candidate lists -/

theorem passingCandidates_score_ge (st : SwipeState) (ks : List Char)
    (c : Candidate) (h : c ∈ passingCandidates st ks) : (-5 : ℝ) ≤ c.score := by
  unfold passingCandidates at h
  obtain ⟨idx, _, heq⟩ := List.mem_filterMap.mp h
  split at heq
  · cases heq
  · split at heq
    · cases heq
      assumption
    · cases heq

/-- C4 (amended): every candidate list the geometric strategy may return is
sorted by non-increasing score, holds only candidates scoring at least the
minimum `-5.0`, and has at most `MAX_CANDIDATES = 8` entries; every list the
shape-channel strategy's final stage may return is sorted by non-increasing
score and capped at its `maxCandidates` argument (it has no minimum-score
filter).  The relative order of equal-score candidates is *unspecified*
(`std::sort` is not stable) — see the counterexample. -/
theorem c4_candidate_lists_sorted_filtered_capped :
    (∀ (st : SwipeState) (ks : List Char) (res : List Candidate),
      GenerateCandidatesRel st ks res →
        SortedBy Candidate.score res ∧ res.length ≤ maxCandidates ∧
        ∀ c ∈ res, (-5 : ℝ) ≤ c.score) ∧
    (∀ (input : List Sh2Candidate) (maxC : ℕ) (res : List Sh2Candidate),
      Sh2SortCapRel input maxC res →
        SortedBy Sh2Candidate.score res ∧ res.length ≤ maxC) := by
  constructor
  · intro st ks res hrel
    rcases hrel with ⟨_, rfl⟩ | ⟨_, sorted, ⟨hperm, hsorted⟩, rfl⟩
    · exact ⟨List.Pairwise.nil, by simp [maxCandidates], by simp⟩
    · refine ⟨List.Pairwise.sublist (List.take_sublist _ _) hsorted, ?_, ?_⟩
      · rw [List.length_take]
        exact min_le_left _ _
      · intro c hc
        have hmem : c ∈ sorted := (List.take_sublist _ _).subset hc
        exact passingCandidates_score_ge st ks c (hperm.mem_iff.mpr hmem)
  · intro input maxC res hrel
    rcases hrel with ⟨sorted, _, hsorted, rfl⟩
    refine ⟨List.Pairwise.sublist (List.take_sublist _ _) hsorted, ?_⟩
    rw [List.length_take]
    exact min_le_left _ _

/-- C4 witness: the amended theorem applied to a too-short key sequence
(whose only legal result is `[]`) and to the empty shape-channel input. -/
theorem c4_candidate_lists_witness :
    (SortedBy Candidate.score ([] : List Candidate) ∧
      ([] : List Candidate).length ≤ maxCandidates ∧
      ∀ c ∈ ([] : List Candidate), (-5 : ℝ) ≤ c.score) ∧
    (SortedBy Sh2Candidate.score ([] : List Sh2Candidate) ∧
      ([] : List Sh2Candidate).length ≤ 0) :=
  ⟨c4_candidate_lists_sorted_filtered_capped.1 c2State ['a'] []
      (Or.inl ⟨by decide, rfl⟩),
   c4_candidate_lists_sorted_filtered_capped.2 [] 0 []
      ⟨[], List.Perm.refl _, List.Pairwise.nil, rfl⟩⟩

/-! ### C4 counterexample: unspecified tie order

Two distinct dictionary words ("acb" and "adb", same frequency) score
identically for the key sequence "ab" on an empty layout.  `std::sort` may
legally return them in either order, in particular in the reverse of their
shortlist order. -/

def c4Freqs : List Char → Option ℕ := fun _ => some 7

def c4Dict : List DictWord := buildDict c4Freqs [['a', 'c', 'b'], ['a', 'd', 'b']]

def c4State : SwipeState := ⟨[], c4Dict⟩

def c4DwA : DictWord := ⟨['a', 'c', 'b'], 7, 'a', 'b', 3⟩

def c4DwB : DictWord := ⟨['a', 'd', 'b'], 7, 'a', 'b', 3⟩

theorem c4_spatial_zero (w : List Char) :
    computeSpatialScore [] ['a', 'b'] w = 0 := by
  have hgo : ∀ (a b : List Char), spatialGo [] a b = (0, 0) := by
    intro a
    induction a with
    | nil => intro b; rw [spatialGo]
    | cons x xs ih =>
      intro b
      induction b with
      | nil => rw [spatialGo]
      | cons y ys ihb =>
        rw [spatialGo]
        simp only [findKeyById, List.reverse_nil, List.find?_nil]
        split_ifs <;> simp [ih, ihb]
  unfold computeSpatialScore
  rw [hgo]
  simp

theorem c4_score_eval :
    scoreCandidate [] ['a', 'b'] c4DwA = (-22 / 10 : ℝ) +
      (8 / 10 : ℝ) * Real.log (1 + 1000 / 8) ∧
    scoreCandidate [] ['a', 'b'] c4DwB = (-22 / 10 : ℝ) +
      (8 / 10 : ℝ) * Real.log (1 + 1000 / 8) := by
  constructor
  · unfold scoreCandidate
    rw [show levenshtein ['a', 'b'] c4DwA.word 7 = 1 from by decide]
    rw [show countBigramOverlap ['a', 'b'] c4DwA.word = 0 from by decide]
    rw [show c4DwA.word = ['a', 'c', 'b'] from rfl, c4_spatial_zero]
    norm_num [c4DwA]
  · unfold scoreCandidate
    rw [show levenshtein ['a', 'b'] c4DwB.word 7 = 1 from by decide]
    rw [show countBigramOverlap ['a', 'b'] c4DwB.word = 0 from by decide]
    rw [show c4DwB.word = ['a', 'd', 'b'] from rfl, c4_spatial_zero]
    norm_num [c4DwB]

theorem c4_score_ge :
    (-5 : ℝ) ≤ scoreCandidate [] ['a', 'b'] c4DwA ∧
    (-5 : ℝ) ≤ scoreCandidate [] ['a', 'b'] c4DwB := by
  have hlog : (0 : ℝ) ≤ Real.log (1 + 1000 / 8) := Real.log_nonneg (by norm_num)
  rw [c4_score_eval.1, c4_score_eval.2]
  constructor <;> linarith

noncomputable def c4CandA : Candidate :=
  { word := ['a', 'c', 'b'], score := scoreCandidate [] ['a', 'b'] c4DwA,
    editDistance := 1, bigramOverlap := 0,
    freqContribution := (8 / 10 : ℝ) * Real.log (1 + 1000 / ((7 : ℕ) + 1 : ℝ)),
    spatialContribution := (15 / 10 : ℝ) * computeSpatialScore [] ['a', 'b'] ['a', 'c', 'b'] }

noncomputable def c4CandB : Candidate :=
  { word := ['a', 'd', 'b'], score := scoreCandidate [] ['a', 'b'] c4DwB,
    editDistance := 1, bigramOverlap := 0,
    freqContribution := (8 / 10 : ℝ) * Real.log (1 + 1000 / ((7 : ℕ) + 1 : ℝ)),
    spatialContribution := (15 / 10 : ℝ) * computeSpatialScore [] ['a', 'b'] ['a', 'd', 'b'] }

theorem c4_passing_eval :
    passingCandidates c4State ['a', 'b'] = [c4CandA, c4CandB] := by
  unfold passingCandidates
  rw [show getShortlist c4State.dictionary ['a', 'b'] = [0, 1] from by decide]
  simp only [List.filterMap_cons, List.filterMap_nil,
    show c4State.dictionary[0]? = some c4DwA from by decide,
    show c4State.dictionary[1]? = some c4DwB from by decide,
    show c4State.keys = [] from rfl]
  rw [if_pos c4_score_ge.1, if_pos c4_score_ge.2]
  rw [show levenshtein ['a', 'b'] c4DwA.word 7 = 1 from by decide]
  rw [show levenshtein ['a', 'b'] c4DwB.word 7 = 1 from by decide]
  rw [show countBigramOverlap ['a', 'b'] c4DwA.word = 0 from by decide]
  rw [show countBigramOverlap ['a', 'b'] c4DwB.word = 0 from by decide]
  rfl

/-- C4 counterexample: a legal `generateCandidates` result (under the
`std::sort` postcondition) in which the two equal-score candidates appear in
the *reverse* of their shortlist order — "candidates with equal scores appear
in their original shortlist order" is not guaranteed by the code. -/
theorem c4_unstable_tie_order_counterexample :
    GenerateCandidatesRel c4State ['a', 'b'] [c4CandB, c4CandA] ∧
    (passingCandidates c4State ['a', 'b']).map Candidate.word =
      [['a', 'c', 'b'], ['a', 'd', 'b']] ∧
    [c4CandB, c4CandA].map Candidate.word = [['a', 'd', 'b'], ['a', 'c', 'b']] ∧
    c4CandA.score = c4CandB.score ∧ c4CandA.word ≠ c4CandB.word := by
  have hEq : c4CandA.score = c4CandB.score := by
    show scoreCandidate [] ['a', 'b'] c4DwA = scoreCandidate [] ['a', 'b'] c4DwB
    rw [c4_score_eval.1, c4_score_eval.2]
  refine ⟨?_, ?_, ?_, hEq, ?_⟩
  · refine Or.inr ⟨by decide, [c4CandB, c4CandA], ⟨?_, ?_⟩, ?_⟩
    · rw [c4_passing_eval]
      exact List.Perm.swap _ _ _
    · exact List.pairwise_pair.mpr (le_of_eq hEq)
    · rfl
  · rw [c4_passing_eval]
    rfl
  · rfl
  · intro h
    rw [show c4CandA.word = ['a', 'c', 'b'] from rfl,
        show c4CandB.word = ['a', 'd', 'b'] from rfl] at h
    exact absurd h (by decide)

end MagicKB

/-! ## C5: the bounded Levenshtein distance

Reference specification: the textbook Levenshtein distance (Mathlib's
`levenshtein`) with unit insert/delete cost and the case-insensitive
substitution cost used by the C++ (`costCI`). -/

/-- The cost structure of `SwipeEngine::levenshtein`: unit insertions and
deletions, case-insensitive substitution. -/
def ciCost : Levenshtein.Cost Char Char ℕ :=
  { delete := fun _ => 1, insert := fun _ => 1, substitute := MagicKB.costCI }

/-- The true case-insensitive edit distance between two strings (the textbook
recurrence, via Mathlib's `levenshtein`). -/
def levD (xs ys : List Char) : ℕ := levenshtein ciCost xs ys

namespace MagicKB

theorem levD_nil_left (ys : List Char) : levD [] ys = ys.length := by
  induction ys with
  | nil => rfl
  | cons y ys ih =>
    unfold levD at ih ⊢
    rw [levenshtein_nil_cons, ih]
    show 1 + ys.length = ys.length + 1
    omega

theorem levD_nil_right (xs : List Char) : levD xs [] = xs.length := by
  induction xs with
  | nil => rfl
  | cons x xs ih =>
    unfold levD at ih ⊢
    rw [levenshtein_cons_nil, ih]
    show 1 + xs.length = xs.length + 1
    omega

theorem levD_cons_cons (x : Char) (xs : List Char) (y : Char) (ys : List Char) :
    levD (x :: xs) (y :: ys) =
      min (1 + levD xs (y :: ys)) (min (1 + levD (x :: xs) ys)
        (costCI x y + levD xs ys)) := by
  unfold levD
  rw [levenshtein_cons_cons]
  rfl

theorem costCI_le_one (a b : Char) : costCI a b ≤ 1 := by
  unfold costCI
  split_ifs <;> omega

theorem levD_le_del (x : Char) (xs ys : List Char) :
    levD (x :: xs) ys ≤ 1 + levD xs ys := by
  cases ys with
  | nil =>
    rw [levD_nil_right, levD_nil_right]
    simp only [List.length_cons]
    omega
  | cons y ys =>
    rw [levD_cons_cons]
    exact min_le_left _ _

theorem levD_le_ins (y : Char) (xs ys : List Char) :
    levD xs (y :: ys) ≤ 1 + levD xs ys := by
  cases xs with
  | nil =>
    rw [levD_nil_left, levD_nil_left]
    simp only [List.length_cons]
    omega
  | cons x xs =>
    rw [levD_cons_cons]
    exact le_trans (min_le_right _ _) (min_le_left _ _)

theorem levD_le_sub (x y : Char) (xs ys : List Char) :
    levD (x :: xs) (y :: ys) ≤ costCI x y + levD xs ys := by
  rw [levD_cons_cons]
  exact le_trans (min_le_right _ _) (min_le_right _ _)

theorem le_add_min3 (L c a b d : ℕ) (h1 : L ≤ c + a) (h2 : L ≤ c + b)
    (h3 : L ≤ c + d) : L ≤ c + min a (min b d) := by omega

/-- The row/column exchange identity on nested minima used in the
`levD_snoc` step: both sides are the minimum of the same nine atoms. -/
theorem min9_exchange (p q r s t u v w z cab cxy : ℕ) :
    min (1 + min (1+p) (min (1+q) (cxy+r)))
      (min (1 + min (1+s) (min (1+t) (cxy+u)))
        (cab + min (1+v) (min (1+w) (cxy+z)))) =
    min (1 + min (1+p) (min (1+s) (cab+v)))
      (min (1 + min (1+q) (min (1+t) (cab+w)))
        (cxy + min (1+r) (min (1+u) (cab+z)))) := by
  apply le_antisymm
  · refine le_min ?_ (le_min ?_ ?_)
    · exact le_add_min3 _ _ _ _ _
        (le_trans (min_le_left _ _) (by omega))
        (le_trans (le_trans (min_le_right _ _) (min_le_left _ _)) (by omega))
        (le_trans (le_trans (min_le_right _ _) (min_le_right _ _)) (by omega))
    · exact le_add_min3 _ _ _ _ _
        (le_trans (min_le_left _ _) (by omega))
        (le_trans (le_trans (min_le_right _ _) (min_le_left _ _)) (by omega))
        (le_trans (le_trans (min_le_right _ _) (min_le_right _ _)) (by omega))
    · exact le_add_min3 _ _ _ _ _
        (le_trans (min_le_left _ _) (by omega))
        (le_trans (le_trans (min_le_right _ _) (min_le_left _ _)) (by omega))
        (le_trans (le_trans (min_le_right _ _) (min_le_right _ _)) (by omega))
  · refine le_min ?_ (le_min ?_ ?_)
    · exact le_add_min3 _ _ _ _ _
        (le_trans (min_le_left _ _) (by omega))
        (le_trans (le_trans (min_le_right _ _) (min_le_left _ _)) (by omega))
        (le_trans (le_trans (min_le_right _ _) (min_le_right _ _)) (by omega))
    · exact le_add_min3 _ _ _ _ _
        (le_trans (min_le_left _ _) (by omega))
        (le_trans (le_trans (min_le_right _ _) (min_le_left _ _)) (by omega))
        (le_trans (le_trans (min_le_right _ _) (min_le_right _ _)) (by omega))
    · exact le_add_min3 _ _ _ _ _
        (le_trans (min_le_left _ _) (by omega))
        (le_trans (le_trans (min_le_right _ _) (min_le_left _ _)) (by omega))
        (le_trans (le_trans (min_le_right _ _) (min_le_right _ _)) (by omega))

/-- The "from the right" recurrence: appending one character to each string
decomposes like the usual cons recurrence.  Proved by strong induction on the
total length; in every case both sides become minima over the same set of
atoms. -/
theorem levD_snoc (x y : Char) :
    ∀ (N : ℕ) (A B : List Char), A.length + B.length ≤ N →
      levD (A ++ [x]) (B ++ [y]) =
        min (1 + levD A (B ++ [y])) (min (1 + levD (A ++ [x]) B)
          (costCI x y + levD A B)) := by
  intro N
  induction N with
  | zero =>
    intro A B hN
    have hA : A = [] := List.length_eq_zero.mp (by omega)
    have hB : B = [] := List.length_eq_zero.mp (by omega)
    subst hA; subst hB
    simp only [List.nil_append]
    rw [levD_cons_cons]
  | succ N ih =>
    intro A B hN
    cases A with
    | nil =>
      cases B with
      | nil =>
        simp only [List.nil_append]
        rw [levD_cons_cons]
      | cons b B' =>
        have h1 := ih [] B'
          (by simp only [List.length_nil, List.length_cons] at hN ⊢; omega)
        simp only [List.nil_append, List.cons_append] at h1 ⊢
        rw [levD_cons_cons x [] b (B' ++ [y])]
        rw [levD_cons_cons x [] b B']
        rw [h1]
        simp only [levD_nil_left, List.length_append, List.length_cons,
          List.length_nil]
        omega
    | cons a A' =>
      cases B with
      | nil =>
        have h1 := ih A' []
          (by simp only [List.length_nil, List.length_cons] at hN ⊢; omega)
        simp only [List.nil_append, List.cons_append] at h1 ⊢
        rw [levD_cons_cons a (A' ++ [x]) y []]
        rw [levD_cons_cons a A' y []]
        rw [h1]
        simp only [levD_nil_right, List.length_append, List.length_cons,
          List.length_nil]
        omega
      | cons b B' =>
        have hT1 := ih A' (b :: B')
          (by simp only [List.length_cons] at hN ⊢; omega)
        have hT2 := ih (a :: A') B'
          (by simp only [List.length_cons] at hN ⊢; omega)
        have hT3 := ih A' B'
          (by simp only [List.length_cons] at hN ⊢; omega)
        simp only [List.cons_append] at hT1 hT2 hT3 ⊢
        rw [levD_cons_cons a (A' ++ [x]) b (B' ++ [y])]
        rw [levD_cons_cons a A' b (B' ++ [y])]
        rw [levD_cons_cons a (A' ++ [x]) b B']
        rw [levD_cons_cons a A' b B']
        rw [hT1, hT2, hT3]
        generalize levD A' (b :: (B' ++ [y])) = p
        generalize levD (A' ++ [x]) (b :: B') = q
        generalize levD A' (b :: B') = r
        generalize levD (a :: A') (B' ++ [y]) = s
        generalize levD (a :: (A' ++ [x])) B' = t
        generalize levD (a :: A') B' = u
        generalize levD A' (B' ++ [y]) = v
        generalize levD (A' ++ [x]) B' = w
        generalize levD A' B' = z
        generalize costCI a b = cab
        generalize costCI x y = cxy
        exact min9_exchange p q r s t u v w z cab cxy

/-- The exact DP row: for processed `s1`-prefix `A` and processed `s2`-prefix
`B` with remainder `C`, the row suffix `[levD A (B ++ C.take j) | j = 0..|C|]`. -/
def prowFrom (A : List Char) : List Char → List Char → List ℕ
  | B, [] => [levD A B]
  | B, y :: C => levD A B :: prowFrom A (B ++ [y]) C

theorem prowFrom_head_tail (A B C : List Char) :
    prowFrom A B C = levD A B :: (prowFrom A B C).tail := by
  cases C <;> rfl

theorem prowFrom_ne_nil (A B C : List Char) : prowFrom A B C ≠ [] := by
  cases C <;> simp [prowFrom]

theorem getLastD_ne_nil {l : List ℕ} (h : l ≠ []) (d d' : ℕ) :
    l.getLastD d = l.getLastD d' := by
  cases l with
  | nil => exact absurd rfl h
  | cons a l => rw [List.getLastD_cons, List.getLastD_cons]

theorem prowFrom_getLastD (A : List Char) :
    ∀ (C B : List Char), (prowFrom A B C).getLastD 0 = levD A (B ++ C) := by
  intro C
  induction C with
  | nil => intro B; simp [prowFrom]
  | cons y C ih =>
    intro B
    show (levD A B :: prowFrom A (B ++ [y]) C).getLastD 0 = _
    rw [List.getLastD_cons, getLastD_ne_nil (prowFrom_ne_nil A (B ++ [y]) C) _ 0,
      ih (B ++ [y])]
    simp

theorem foldl_min_le_init : ∀ (l : List ℕ) (a : ℕ), l.foldl min a ≤ a := by
  intro l
  induction l with
  | nil => intro a; simp
  | cons b l ih => intro a; exact le_trans (ih (min a b)) (min_le_left _ _)

theorem foldl_min_le_mem :
    ∀ (l : List ℕ) (a v : ℕ), v ∈ l → l.foldl min a ≤ v := by
  intro l
  induction l with
  | nil => intro a v hv; exact absurd hv (List.not_mem_nil v)
  | cons b l ih =>
    intro a v hv
    rcases List.mem_cons.mp hv with h | h
    · subst h
      exact le_trans (foldl_min_le_init l (min a v)) (min_le_right _ _)
    · exact ih (min a b) v h

theorem le_foldl_min :
    ∀ (l : List ℕ) (a c : ℕ), c ≤ a → (∀ v ∈ l, c ≤ v) → c ≤ l.foldl min a := by
  intro l
  induction l with
  | nil => intro a c h _; exact h
  | cons b l ih =>
    intro a c h hl
    exact ih (min a b) c (le_min h (hl b (List.mem_cons_self b l)))
      fun v hv => hl v (List.mem_cons_of_mem b hv)

theorem foldl_min_mono_init :
    ∀ (l : List ℕ) (a a' : ℕ), a' ≤ a → l.foldl min a' ≤ l.foldl min a := by
  intro l
  induction l with
  | nil => intro a a' h; exact h
  | cons b l ih => intro a a' h; exact ih _ _ (min_le_min_right b h)

theorem minND_le_of_mem {l : List ℕ} {v : ℕ} (h : v ∈ l) : minND l ≤ v := by
  cases l with
  | nil => exact absurd h (List.not_mem_nil v)
  | cons a l =>
    rcases List.mem_cons.mp h with h' | h'
    · subst h'; exact foldl_min_le_init l v
    · exact foldl_min_le_mem l a v h'

theorem le_minND_cons (a c : ℕ) (l : List ℕ) (h1 : c ≤ a)
    (h2 : ∀ v ∈ l, c ≤ v) : c ≤ minND (a :: l) :=
  le_foldl_min l a c h1 h2

theorem minND_cons_le_tail (a : ℕ) {l : List ℕ} (h : l ≠ []) :
    minND (a :: l) ≤ minND l := by
  cases l with
  | nil => exact absurd rfl h
  | cons b l' => exact foldl_min_mono_init l' b (min a b) (min_le_right a b)

theorem rowGo_nil_right (x : Char) (left : ℕ) (prev : List ℕ) :
    rowGo x left prev [] = [] := by
  cases prev with
  | nil => rfl
  | cons p0 ps => cases ps <;> rfl

/-- Every entry the inner column loop produces is at least the minimum of its
seed and the previous row: the DP row minima never decrease. -/
theorem rowGo_mem_ge (x : Char) :
    ∀ (C : List Char) (left : ℕ) (prev : List ℕ) (v : ℕ),
      v ∈ rowGo x left prev C → min left (minND prev) ≤ v := by
  intro C
  induction C with
  | nil =>
    intro left prev v hv
    rw [rowGo_nil_right] at hv
    exact absurd hv (List.not_mem_nil v)
  | cons y ys ih =>
    intro left prev v hv
    match prev with
    | [] => exact absurd hv (List.not_mem_nil v)
    | [p0] => exact absurd hv (List.not_mem_nil v)
    | p0 :: p1 :: ps =>
      simp only [rowGo] at hv
      rcases List.mem_cons.mp hv with h | h
      · have hp0 : minND (p0 :: p1 :: ps) ≤ p0 :=
          minND_le_of_mem (List.mem_cons_self _ _)
        have hp1 : minND (p0 :: p1 :: ps) ≤ p1 :=
          minND_le_of_mem (List.mem_cons_of_mem _ (List.mem_cons_self _ _))
        subst h
        omega
      · have hih := ih _ (p1 :: ps) v h
        have hp0 : minND (p0 :: p1 :: ps) ≤ p0 :=
          minND_le_of_mem (List.mem_cons_self _ _)
        have hp1 : minND (p0 :: p1 :: ps) ≤ p1 :=
          minND_le_of_mem (List.mem_cons_of_mem _ (List.mem_cons_self _ _))
        have htail : minND (p0 :: p1 :: ps) ≤ minND (p1 :: ps) :=
          minND_cons_le_tail p0 (by simp)
        omega

/-- The inner column loop is exact: from the row of prefix `A` it produces the
row of prefix `A ++ [x]` (minus the seed entry). -/
theorem rowGo_spec (x : Char) (A : List Char) :
    ∀ (C B : List Char),
      rowGo x (levD (A ++ [x]) B) (prowFrom A B C) C =
        (prowFrom (A ++ [x]) B C).tail := by
  intro C
  induction C with
  | nil => intro B; simp [prowFrom, rowGo_nil_right]
  | cons y C ih =>
    intro B
    rw [show prowFrom A B (y :: C) = levD A B :: prowFrom A (B ++ [y]) C from rfl]
    rw [prowFrom_head_tail A (B ++ [y]) C]
    simp only [rowGo]
    have hv : min (levD (A ++ [x]) B + 1)
        (min (levD A (B ++ [y]) + 1) (levD A B + costCI x y)) =
        levD (A ++ [x]) (B ++ [y]) := by
      have hs := levD_snoc x y (A.length + B.length) A B (le_refl _)
      omega
    rw [hv]
    rw [← prowFrom_head_tail A (B ++ [y]) C]
    rw [ih (B ++ [y])]
    rw [show prowFrom (A ++ [x]) B (y :: C)
        = levD (A ++ [x]) B :: prowFrom (A ++ [x]) (B ++ [y]) C from rfl]
    rw [List.tail_cons]
    exact (prowFrom_head_tail (A ++ [x]) (B ++ [y]) C).symm

/-- One full row step: the row of `A ++ [x]` is the seed `|A| + 1` followed by
the inner loop run over the row of `A`. -/
theorem prow_step (x : Char) (A s2 : List Char) :
    prowFrom (A ++ [x]) [] s2 =
      (A.length + 1) :: rowGo x (A.length + 1) (prowFrom A [] s2) s2 := by
  have hlen : levD (A ++ [x]) [] = A.length + 1 := by
    rw [levD_nil_right]; simp
  have h := rowGo_spec x A s2 []
  rw [hlen] at h
  rw [h]
  have hh := prowFrom_head_tail (A ++ [x]) [] s2
  rw [hlen] at hh
  exact hh

theorem minND_prowFrom_le (A : List Char) :
    ∀ (C B : List Char), minND (prowFrom A B C) ≤ levD A (B ++ C) := by
  intro C
  induction C with
  | nil => intro B; simp [prowFrom, minND]
  | cons y C ih =>
    intro B
    show minND (levD A B :: prowFrom A (B ++ [y]) C) ≤ _
    refine le_trans (minND_cons_le_tail _ (prowFrom_ne_nil A (B ++ [y]) C)) ?_
    have := ih (B ++ [y])
    simpa using this

/-- Row minima are dominated by the final distance: the minimum of the row of
any prefix `A` of `s1 = A ++ xs` is at most `levD s1 s2`. -/
theorem minprow_le_levD (s2 : List Char) :
    ∀ (xs A : List Char), minND (prowFrom A [] s2) ≤ levD (A ++ xs) s2 := by
  intro xs
  induction xs with
  | nil =>
    intro A
    have := minND_prowFrom_le A s2 []
    simpa using this
  | cons x xs ih =>
    intro A
    have hhead : minND (prowFrom A [] s2) ≤ A.length := by
      have h1 : minND (prowFrom A [] s2) ≤ levD A [] := by
        rw [prowFrom_head_tail A [] s2]
        exact minND_le_of_mem (List.mem_cons_self _ _)
      rwa [levD_nil_right] at h1
    have hmono : minND (prowFrom A [] s2) ≤ minND (prowFrom (A ++ [x]) [] s2) := by
      rw [prow_step]
      refine le_minND_cons _ _ _ (by omega) ?_
      intro v hv
      have := rowGo_mem_ge x s2 (A.length + 1) (prowFrom A [] s2) v hv
      omega
    refine le_trans hmono ?_
    have := ih (A ++ [x])
    rw [List.append_assoc] at this
    simpa using this

/-- The row loop computes the exact distance when it never aborts, and every
abort happens only above the limit; combined statement threading the prefix. -/
theorem levLoop_spec (s2 : List Char) (limit : ℕ) :
    ∀ (xs A : List Char),
      (levD (A ++ xs) s2 ≤ limit →
        levLoop s2 limit (prowFrom A [] s2) (A.length + 1) xs = levD (A ++ xs) s2) ∧
      (limit < levD (A ++ xs) s2 →
        limit < levLoop s2 limit (prowFrom A [] s2) (A.length + 1) xs) := by
  intro xs
  induction xs with
  | nil =>
    intro A
    constructor
    · intro _
      show (prowFrom A [] s2).getLastD 0 = levD (A ++ []) s2
      rw [prowFrom_getLastD]
      simp
    · intro h
      show limit < (prowFrom A [] s2).getLastD 0
      rw [prowFrom_getLastD]
      simpa using h
  | cons x xs ih =>
    intro A
    have hcurr : (A.length + 1 : ℕ) :: rowGo x (A.length + 1) (prowFrom A [] s2) s2
        = prowFrom (A ++ [x]) [] s2 := (prow_step x A s2).symm
    have hD : levD ((A ++ [x]) ++ xs) s2 = levD (A ++ (x :: xs)) s2 := by
      rw [List.append_assoc]
      simp
    have hlen2 : (A ++ [x]).length + 1 = A.length + 1 + 1 := by simp
    constructor
    · intro hle
      simp only [levLoop]
      rw [hcurr]
      split_ifs with hexit
      · exfalso
        have hm := minprow_le_levD s2 xs (A ++ [x])
        rw [hD] at hm
        omega
      · have h := (ih (A ++ [x])).1 (by rw [hD]; exact hle)
        rw [hlen2, hD] at h
        exact h
    · intro hgt
      simp only [levLoop]
      rw [hcurr]
      split_ifs with hexit
      · omega
      · have h := (ih (A ++ [x])).2 (by rw [hD]; exact hgt)
        rw [hlen2] at h
        exact h

theorem prowFrom_nil_eq_range' :
    ∀ (C B : List Char), prowFrom [] B C = List.range' B.length (C.length + 1) := by
  intro C
  induction C with
  | nil => intro B; simp [prowFrom, levD_nil_left, List.range'_one]
  | cons y C ih =>
    intro B
    show levD [] B :: prowFrom [] (B ++ [y]) C = _
    simp only [List.length_cons]
    rw [levD_nil_left, ih (B ++ [y]), List.range'_succ B.length (C.length + 1) 1]
    simp

theorem prow_nil (s2 : List Char) :
    prowFrom [] [] s2 = List.range (s2.length + 1) := by
  rw [List.range_eq_range']
  simpa using prowFrom_nil_eq_range' s2 []

/-- Two-sided length bound: the distance is at least the length difference. -/
theorem levD_length_bound_aux :
    ∀ (N : ℕ) (xs ys : List Char), xs.length + ys.length ≤ N →
      xs.length ≤ ys.length + levD xs ys ∧ ys.length ≤ xs.length + levD xs ys := by
  intro N
  induction N with
  | zero =>
    intro xs ys hN
    have hx : xs = [] := List.length_eq_zero.mp (by omega)
    have hy : ys = [] := List.length_eq_zero.mp (by omega)
    subst hx; subst hy
    simp [levD_nil_left]
  | succ N ih =>
    intro xs ys hN
    cases xs with
    | nil => rw [levD_nil_left]; simp
    | cons x xs' =>
      cases ys with
      | nil => rw [levD_nil_right]; simp
      | cons y ys' =>
        rw [levD_cons_cons]
        have h1 := ih xs' (y :: ys') (by simp only [List.length_cons] at hN ⊢; omega)
        have h2 := ih (x :: xs') ys' (by simp only [List.length_cons] at hN ⊢; omega)
        have h3 := ih xs' ys' (by simp only [List.length_cons] at hN ⊢; omega)
        simp only [List.length_cons] at h1 h2 h3 ⊢
        omega

theorem levD_length_bound (xs ys : List Char) :
    xs.length ≤ ys.length + levD xs ys ∧ ys.length ≤ xs.length + levD xs ys :=
  levD_length_bound_aux (xs.length + ys.length) xs ys (le_refl _)

/-- C5: `SwipeEngine::levenshtein` (swipe_engine.cpp:417-451) computes the
exact case-insensitive edit distance whenever that distance is within the
limit, and returns a value strictly above the limit whenever the distance
exceeds it.  (The spec's stronger claim that the return value is then exactly
`limit + 1` is false: a run that never triggers an early exit returns the
exact distance, which may exceed `limit + 1`.) -/
theorem c5_levenshtein_exact_within_limit (s1 s2 : List Char) (limit : ℕ) :
    (levD s1 s2 ≤ limit → levenshtein s1 s2 limit = levD s1 s2) ∧
    (limit < levD s1 s2 → limit < levenshtein s1 s2 limit) := by
  have hlen := levD_length_bound s1 s2
  constructor
  · intro hle
    unfold levenshtein
    split_ifs with habs
    · exfalso
      omega
    · have h := (levLoop_spec s2 limit s1 []).1 (by simpa using hle)
      rw [prow_nil] at h
      simpa using h
  · intro hgt
    unfold levenshtein
    split_ifs with habs
    · omega
    · have h := (levLoop_spec s2 limit s1 []).2 (by simpa using hgt)
      rw [prow_nil] at h
      simpa using h

theorem c5_levenshtein_witness :
    levD ['c', 'a', 't'] ['c', 'o', 't'] ≤ 7 ∧
    levenshtein ['c', 'a', 't'] ['c', 'o', 't'] 7 =
      levD ['c', 'a', 't'] ['c', 'o', 't'] :=
  ⟨by decide,
    (c5_levenshtein_exact_within_limit ['c', 'a', 't'] ['c', 'o', 't'] 7).1
      (by decide)⟩

/-- The spec says `levenshtein(a, b, limit)` returns `limit + 1` whenever the
true distance exceeds `limit`.  For `a = "acb"`, `b = "abxy"`, `limit = 1` the
true distance is 3, no early exit fires (every row minimum stays at most 1),
and the function returns 3, not `1 + 1 = 2`. -/
theorem c5_not_limit_plus_one_counterexample :
    levD ['a', 'c', 'b'] ['a', 'b', 'x', 'y'] = 3 ∧
    levenshtein ['a', 'c', 'b'] ['a', 'b', 'x', 'y'] 1 = 3 ∧
    (3 : ℕ) ≠ 1 + 1 := by decide

/-! ## C10: Shark2 uniform resampling

Embeds `Shark2Engine::uniformSample` (shark2.cpp:274-321) and
`Shark2Engine::pathLength` (shark2.cpp:248-257).  Points here carry real
coordinates (`double`); the two while loops are translated with the explicit
capacity `n - result.size()` as fuel, which both loop conditions test. -/

/-- A `Point` of shark2.h: double coordinates. -/
structure PointR where
  x : ℝ
  y : ℝ

/-- `Point::distance` (shark2.h): Euclidean distance. -/
noncomputable def pdistR (p q : PointR) : ℝ :=
  Real.sqrt ((p.x - q.x) ^ 2 + (p.y - q.y) ^ 2)

/-- `Shark2Engine::pathLength` (shark2.cpp:248-257): sum of consecutive
distances, `0` for fewer than two points. -/
noncomputable def pathLength : List PointR → ℝ
  | p :: q :: rest => pdistR p q + pathLength (q :: rest)
  | _ => 0

open Classical in
/-- The inner while loop of `uniformSample` (shark2.cpp:300-310): emit
interpolated points on the segment `p → q` while `accumulated + segLen >=
interval * j` and capacity (`fuel` = `n - result.size()`) remains; returns the
emitted points and the final `j`. -/
noncomputable def usInner (p q : PointR) (segLen interval accumulated : ℝ) :
    ℕ → ℕ → List PointR × ℕ
  | j, 0 => ([], j)
  | j, fuel + 1 =>
    if interval * j ≤ accumulated + segLen then
      let t := max 0 (min 1 ((interval * j - accumulated) / segLen))
      let interp : PointR := ⟨p.x + t * (q.x - p.x), p.y + t * (q.y - p.y)⟩
      let next := usInner p q segLen interval accumulated (j + 1) fuel
      (interp :: next.1, next.2)
    else ([], j)

open Classical in
/-- The outer for loop of `uniformSample` (shark2.cpp:296-312): walk the
segments while capacity remains, threading `accumulated` and `j`. -/
noncomputable def usOuter (interval : ℝ) :
    PointR → List PointR → ℝ → ℕ → ℕ → List PointR
  | _, [], _, _, _ => []
  | prev, p :: ps, accumulated, j, fuel =>
    if fuel = 0 then []
    else
      let segLen := pdistR prev p
      let pushed := usInner prev p segLen interval accumulated j fuel
      pushed.1 ++
        usOuter interval p ps (accumulated + segLen) pushed.2
          (fuel - pushed.1.length)

open Classical in
/-- Embeds `Shark2Engine::uniformSample` (shark2.cpp:274-321). -/
noncomputable def uniformSample (points : List PointR) (n : ℕ) : List PointR :=
  match points with
  | [] => []
  | p0 :: rest =>
    if rest = [] then List.replicate n p0
    else
      if pathLength (p0 :: rest) < 1 / 1000000000 then List.replicate n p0
      else
        let interval := pathLength (p0 :: rest) / ((n : ℝ) - 1)
        let result := p0 :: usOuter interval p0 rest 0 1 (n - 1)
        result ++ List.replicate (n - result.length) ((p0 :: rest).getLastD p0)

theorem usInner_length_le (p q : PointR) (s i a : ℝ) :
    ∀ (fuel j : ℕ), (usInner p q s i a j fuel).1.length ≤ fuel := by
  intro fuel
  induction fuel with
  | zero => intro j; simp [usInner]
  | succ fuel ih =>
    intro j
    simp only [usInner]
    split_ifs
    · simpa using ih (j + 1)
    · simp

theorem usOuter_length_le (interval : ℝ) :
    ∀ (rest : List PointR) (prev : PointR) (a : ℝ) (j fuel : ℕ),
      (usOuter interval prev rest a j fuel).length ≤ fuel := by
  intro rest
  induction rest with
  | nil => intro prev a j fuel; simp [usOuter]
  | cons p ps ih =>
    intro prev a j fuel
    simp only [usOuter]
    split_ifs with h
    · simp
    · simp only [List.length_append]
      have h1 := usInner_length_le prev p (pdistR prev p) interval a fuel j
      have h2 := ih p (a + pdistR prev p)
        (usInner prev p (pdistR prev p) interval a j fuel).2
        (fuel - (usInner prev p (pdistR prev p) interval a j fuel).1.length)
      omega

/-- C10: for a non-empty input and `n ≥ 2`, `uniformSample` returns exactly
`n` points starting at the first input point; a single-point input and a
(near-)zero-length path both return `n` copies of the first point.  Hence the
shape/location distance stages always compare sequences of equal length. -/
theorem c10_uniform_sample_shape (p0 : PointR) (rest : List PointR) (n : ℕ)
    (hn : 2 ≤ n) :
    (uniformSample (p0 :: rest) n).length = n ∧
    (uniformSample (p0 :: rest) n).head? = some p0 ∧
    (rest = [] → uniformSample (p0 :: rest) n = List.replicate n p0) ∧
    (pathLength (p0 :: rest) < 1 / 1000000000 →
      uniformSample (p0 :: rest) n = List.replicate n p0) := by
  obtain ⟨m, rfl⟩ : ∃ m, n = m + 2 := ⟨n - 2, by omega⟩
  by_cases hrest : rest = []
  · subst hrest
    refine ⟨?_, ?_, fun _ => ?_, fun _ => ?_⟩ <;>
      simp [uniformSample, List.replicate_succ]
  · simp only [uniformSample, if_neg hrest]
    split_ifs with hdeg
    · exact ⟨by simp, by simp [List.replicate_succ],
        fun h => absurd h hrest, fun _ => rfl⟩
    · have hb := usOuter_length_le
        (pathLength (p0 :: rest) / ((m + 2 : ℕ) - 1 : ℝ)) rest p0 0 1 (m + 2 - 1)
      refine ⟨?_, by simp, fun h => absurd h hrest, fun h => absurd h hdeg⟩
      simp only [List.length_append, List.length_cons, List.length_replicate]
      omega

theorem c10_uniform_sample_witness :
    2 ≤ 5 ∧ (uniformSample [⟨0, 0⟩, ⟨3, 4⟩] 5).length = 5 :=
  ⟨by decide, (c10_uniform_sample_shape ⟨0, 0⟩ [⟨3, 4⟩] 5 (by decide)).1⟩

end MagicKB
